import Mathlib

/-!
Verification of the two command-line scripts in this repository
(`check_gh_repos.py` and `youtube_thumbnail_grabber.py`) against their
natural-language specification.  The Python code is shallowly embedded:
strings are `List Char`, the Python `json` module's `loads` is modelled by an
executable recursive-descent scanner (`jsonLoads`), subprocess calls and the
filesystem are explicit environments, and every embedded function mirrors the
control flow of its source counterpart.
-/

/-! ## Basic character and string utilities -/
/-- Whitespace characters skipped by the Python `json` scanner. -/
def isJsonWs (c : Char) : Bool :=
  c = ' ' || c = '\t' || c = '\n' || c = '\r'

/-- Skip JSON whitespace. -/
def skipWs (cs : List Char) : List Char :=
  cs.dropWhile isJsonWs

/-- Characters for which Python `str.isspace()` holds (the full set stripped
by `str.strip()` with no arguments). -/
def pyIsSpace (c : Char) : Bool :=
  (9 ≤ c.toNat && c.toNat ≤ 13) || c.toNat = 32 ||
  (0x1c ≤ c.toNat && c.toNat ≤ 0x1f) || c.toNat = 0x85 || c.toNat = 0xa0 ||
  c.toNat = 0x1680 || (0x2000 ≤ c.toNat && c.toNat ≤ 0x200a) ||
  c.toNat = 0x2028 || c.toNat = 0x2029 || c.toNat = 0x202f ||
  c.toNat = 0x205f || c.toNat = 0x3000

/-- Drop the longest suffix all of whose characters satisfy `p`. -/
def dropRightWhile (p : Char → Bool) (l : List Char) : List Char :=
  (l.reverse.dropWhile p).reverse

/-- Python `str.strip()` with no arguments. -/
def pyStrip (cs : List Char) : List Char :=
  dropRightWhile pyIsSpace (cs.dropWhile pyIsSpace)

/-- Convert a Lean string literal to the character-list representation used
throughout this development. -/
def strL (s : String) : List Char :=
  s.toList

/-- Python `str.lower()` restricted to ASCII (enough for GitHub login names). -/
def pyLower (cs : List Char) : List Char :=
  cs.map Char.toLower

/-! ## JSON values -/

/-- JSON values as produced by Python `json.loads`.  Numbers keep their source
lexeme (the scripts never compute with numbers); objects keep their key/value
pairs in parse order (lookups take the last binding, like a Python dict built
with repeated assignments). -/
inductive Json where
  | null : Json
  | bool : Bool → Json
  | num : List Char → Json
  | str : List Char → Json
  | arr : List Json → Json
  | obj : List (List Char × Json) → Json

/-- Lookup of `d[k]` on a parsed JSON object: the last binding for the key
wins, as in a Python dict. -/
def Json.lookup (j : Json) (k : List Char) : Option Json :=
  match j with
  | .obj kvs => (kvs.reverse.find? (fun kv => kv.1 = k)).map (·.2)
  | _ => none

/-! ## The string scanner (JSON string literals) -/

/-- Value of a hexadecimal digit. -/
def hexVal (c : Char) : Option Nat :=
  if '0' ≤ c ∧ c ≤ '9' then some (c.toNat - 48)
  else if 'a' ≤ c ∧ c ≤ 'f' then some (c.toNat - 87)
  else if 'A' ≤ c ∧ c ≤ 'F' then some (c.toNat - 55)
  else none

/-- Single-character JSON escapes. -/
def escChar (c : Char) : Option Char :=
  if c = '"' then some '"'
  else if c = '\\' then some '\\'
  else if c = '/' then some '/'
  else if c = 'b' then some (Char.ofNat 8)
  else if c = 'f' then some (Char.ofNat 12)
  else if c = 'n' then some '\n'
  else if c = 'r' then some '\r'
  else if c = 't' then some '\t'
  else none

/-- Scan the rest of a JSON string literal, the opening quote already
consumed; return the decoded characters and the input after the closing
quote.  Models Python json's strict scanner: raw control characters are
rejected, `\uXXXX` escapes are decoded. -/
def parseStringRest : List Char → Option (List Char × List Char)
  | [] => none
  | c :: rest =>
    if c = '"' then some ([], rest)
    else if c = '\\' then
      match rest with
      | [] => none
      | e :: rest2 =>
        if e = 'u' then
          match rest2 with
          | h1 :: h2 :: h3 :: h4 :: rest3 =>
            match hexVal h1, hexVal h2, hexVal h3, hexVal h4 with
            | some a, some b, some c2, some d =>
              match parseStringRest rest3 with
              | some (s, r) =>
                some (Char.ofNat (((a * 16 + b) * 16 + c2) * 16 + d) :: s, r)
              | none => none
            | _, _, _, _ => none
          | _ => none
        else
          match escChar e with
          | some c2 =>
            match parseStringRest rest2 with
            | some (s, r) => some (c2 :: s, r)
            | none => none
          | none => none
    else if c.val < 32 then none
    else
      match parseStringRest rest with
      | some (s, r) => some (c :: s, r)
      | none => none

/-! ## The number scanner -/

/-- Characters that can occur in a JSON number lexeme. -/
def isNumChar (c : Char) : Bool :=
  c.isDigit || c = '-' || c = '+' || c = '.' || c = 'e' || c = 'E'

/-- Exponent digits with optional sign, at least one digit. -/
def validExpDigits (cs : List Char) : Bool :=
  let cs2 := match cs with
    | '+' :: r => r
    | '-' :: r => r
    | _ => cs
  !cs2.isEmpty && cs2.all Char.isDigit

/-- Optional exponent part of a number lexeme. -/
def validExpPart (cs : List Char) : Bool :=
  match cs with
  | [] => true
  | c :: rest => (c = 'e' || c = 'E') && validExpDigits rest

/-- Optional fraction part (followed by optional exponent). -/
def validFracPart (cs : List Char) : Bool :=
  match cs with
  | '.' :: rest =>
    !(rest.takeWhile Char.isDigit).isEmpty && validExpPart (rest.dropWhile Char.isDigit)
  | _ => validExpPart cs

/-- Integer part after the optional sign: `0` or a nonzero digit followed by
digits; then fraction and exponent. -/
def validIntRest (cs : List Char) : Bool :=
  match cs with
  | '0' :: rest => validFracPart rest
  | c :: rest => c.isDigit && validFracPart (rest.dropWhile Char.isDigit)
  | [] => false

/-- Whether a lexeme matches Python json's NUMBER_RE:
`-?(0|[1-9]\d*)(\.\d+)?([eE][-+]?\d+)?`. -/
def validNum (cs : List Char) : Bool :=
  validIntRest (match cs with | '-' :: r => r | _ => cs)

/-- Scan a number at the head of the input: take the maximal run of number
characters and validate it.  For the whole-input outcomes modelled here this
agrees with Python json's regex-based scanner. -/
def parseNumber (cs : List Char) : Option (Json × List Char) :=
  let lex := cs.takeWhile isNumChar
  if validNum lex then some (.num lex, cs.dropWhile isNumChar) else none

/-! ## The value scanner -/

/-- Scanner modes: a JSON value, the element list of a non-empty array (after
the opening bracket and leading whitespace), or the member list of a
non-empty object. -/
inductive PM where
  | value : PM
  | elems : PM
  | members : PM
  deriving DecidableEq

/-- Fuel-indexed recursive-descent scanner mirroring Python json's
`py_scanstring`/`JSONArray`/`JSONObject` scanners.  `pj fuel .value cs`
scans one JSON value at the head of `cs` (no leading whitespace) and returns
it with the unconsumed rest. -/
def pj : Nat → PM → List Char → Option (Json × List Char)
  | 0, _, _ => none
  | fuel + 1, .value, cs =>
    match cs with
    | [] => none
    | c :: rest =>
      if c = '{' then
        match skipWs rest with
        | '}' :: r2 => some (.obj [], r2)
        | s => pj fuel .members s
      else if c = '[' then
        match skipWs rest with
        | ']' :: r2 => some (.arr [], r2)
        | s => pj fuel .elems s
      else if c = '"' then
        match parseStringRest rest with
        | some (s, r) => some (.str s, r)
        | none => none
      else if c = 't' then
        if (strL "true").isPrefixOf cs then some (.bool true, cs.drop 4) else none
      else if c = 'f' then
        if (strL "false").isPrefixOf cs then some (.bool false, cs.drop 5) else none
      else if c = 'n' then
        if (strL "null").isPrefixOf cs then some (.null, cs.drop 4) else none
      else if c = 'N' then
        if (strL "NaN").isPrefixOf cs then some (.num (strL "NaN"), cs.drop 3) else none
      else if c = 'I' then
        if (strL "Infinity").isPrefixOf cs then
          some (.num (strL "Infinity"), cs.drop 8)
        else none
      else if c = '-' && (strL "-Infinity").isPrefixOf cs then
        some (.num (strL "-Infinity"), cs.drop 9)
      else parseNumber cs
  | fuel + 1, .elems, cs =>
    match pj fuel .value cs with
    | none => none
    | some (v, r1) =>
      match skipWs r1 with
      | ']' :: r3 => some (.arr [v], r3)
      | ',' :: r3 =>
        match pj fuel .elems (skipWs r3) with
        | some (.arr vs, r4) => some (.arr (v :: vs), r4)
        | _ => none
      | _ => none
  | fuel + 1, .members, cs =>
    match cs with
    | '"' :: s0 =>
      match parseStringRest s0 with
      | none => none
      | some (key, r1) =>
        match skipWs r1 with
        | ':' :: r2 =>
          match pj fuel .value (skipWs r2) with
          | none => none
          | some (v, r3) =>
            match skipWs r3 with
            | '}' :: r4 => some (.obj [(key, v)], r4)
            | ',' :: r4 =>
              match pj fuel .members (skipWs r4) with
              | some (.obj kvs, r5) => some (.obj ((key, v) :: kvs), r5)
              | _ => none
            | _ => none
        | _ => none
    | _ => none

/-- Model of Python `json.loads`: skip leading whitespace, scan one value,
require the rest to be whitespace only. -/
def jsonLoads (cs : List Char) : Option Json :=
  match pj (2 * cs.length + 2) .value (skipWs cs) with
  | some (v, r) => if skipWs r = [] then some v else none
  | none => none

/-! ## parse_paginated_json (check_gh_repos.py, lines 92-122) -/

/-- Python `output.replace("][", "]\n[")`: non-overlapping left-to-right
replacement of the fixed two-character pattern. -/
def replaceBB : List Char → List Char
  | ']' :: '[' :: rest => ']' :: '\n' :: '[' :: replaceBB rest
  | c :: rest => c :: replaceBB rest
  | [] => []

/-- Characters on which Python `str.splitlines()` breaks. -/
def isPyLineBreak (c : Char) : Bool :=
  c.toNat = 10 || c.toNat = 13 || c.toNat = 0x0b || c.toNat = 0x0c || c.toNat = 0x1c ||
  c.toNat = 0x1d || c.toNat = 0x1e || c.toNat = 0x85 || c.toNat = 0x2028 || c.toNat = 0x2029

/-- Worker for `pySplitlines`: `cur` is the current line, reversed. -/
def slGo (cur : List Char) : List Char → List (List Char)
  | [] => [cur.reverse]
  | '\r' :: '\n' :: rest =>
    cur.reverse :: (match rest with | [] => [] | _ :: _ => slGo [] rest)
  | c :: rest =>
    if isPyLineBreak c then
      cur.reverse :: (match rest with | [] => [] | _ :: _ => slGo [] rest)
    else slGo (c :: cur) rest

/-- Python `str.splitlines()`. -/
def pySplitlines (cs : List Char) : List (List Char) :=
  match cs with
  | [] => []
  | _ :: _ => slGo [] cs

/-- The chunk loop of `parse_paginated_json`: strip each chunk, skip blank
ones, parse the rest, extend with arrays and append single values; a chunk
that fails to parse raises (the error carries the offending chunk). -/
def parse_chunks : List (List Char) → Except (List Char) (List Json)
  | [] => .ok []
  | chunk :: rest =>
    let c := pyStrip chunk
    if c = [] then parse_chunks rest
    else
      match jsonLoads c with
      | none => .error c
      | some (.arr xs) => (parse_chunks rest).map (fun tail => xs ++ tail)
      | some v => (parse_chunks rest).map (fun tail => v :: tail)

/-- `parse_paginated_json` from `check_gh_repos.py`: strip the output, return
`[]` when empty, try whole-output parsing (a non-list value is wrapped as a
singleton), otherwise break at `][` boundaries, split into lines and parse
each fragment; a bad fragment raises. -/
def parse_paginated_json (out : List Char) : Except (List Char) (List Json) :=
  let output := pyStrip out
  if output = [] then .ok []
  else
    match jsonLoads output with
    | some (.arr xs) => .ok xs
    | some v => .ok [v]
    | none => parse_chunks (pySplitlines (replaceBB output))

/-- Whether the head of a list (if any) fails `p`. -/
def headStops (p : Char → Bool) : List Char → Prop
  | [] => True
  | c :: _ => p c = false

/-- The consumed part of a successful scan ends in a character that is
neither JSON whitespace nor Python whitespace. -/
def EndsSolid (l : List Char) : Prop :=
  ∃ c, l.getLast? = some c ∧ pyIsSpace c = false

/-- Mode rank used in the fuel bound. -/
def pmRank : PM → Nat
  | .value => 0
  | _ => 1

/-! ## Concatenated-pages machinery for parse_paginated_json -/

/-- Whether the text contains an occurrence of the two-character pattern
`][` (the only pattern `replaceBB` rewrites). -/
def hasBB : List Char → Bool
  | ']' :: '[' :: _ => true
  | _ :: rest => hasBB rest
  | [] => false

/-- Fragments joined with a single newline between consecutive ones. -/
def joinFrags : List (List Char) → List Char
  | [] => []
  | [t] => t
  | t :: u :: rest => t ++ '\n' :: joinFrags (u :: rest)

/-! ## Subprocess and filesystem environments (check_gh_repos.py) -/

/-- Result of a completed `subprocess.run` call. -/
structure RunResult where
  rc : Nat
  stdout : List Char
  stderr : List Char

/-- Outcome of one external-command invocation: completion (any return
code), `subprocess.TimeoutExpired`, or another raised exception
(`FileNotFoundError` et al.) carrying its message. -/
inductive RunOutcome where
  | completed : RunResult → RunOutcome
  | timeout : RunOutcome
  | fileNotFound : List Char → RunOutcome

/-- Python exceptions that can escape the modelled functions. -/
inductive PyErr where
  | timeoutExpired : PyErr
  | keyError : List Char → PyErr
  | typeError : PyErr

/-- The external world of `check_gh_repos.py`: what each kind of `gh`
invocation would return. -/
structure GhEnv where
  authStatus : RunOutcome
  apiUser : RunOutcome
  repoCheck : List Char → List Char → RunOutcome
  paginate : List Char → RunOutcome

/-- `check_gh_installed` (lines 20-33): `gh auth status`; only
`CalledProcessError` and `FileNotFoundError` are caught, so a timeout
propagates as an uncaught `TimeoutExpired`. -/
def check_gh_installed (env : GhEnv) : Except PyErr Bool :=
  match env.authStatus with
  | .completed r => .ok (decide (r.rc = 0))
  | .fileNotFound _ => .ok false
  | .timeout => .error .timeoutExpired

/-- `get_authenticated_username` (lines 73-89): returns the stripped stdout
of `gh api user --jq .login` when the call succeeds with nonempty output,
`None` otherwise (any exception included). -/
def get_authenticated_username (env : GhEnv) : Option (List Char) :=
  match env.apiUser with
  | .completed r =>
    if r.rc = 0 then
      if pyStrip r.stdout = [] then none else some (pyStrip r.stdout)
    else none
  | _ => none

/-- `check_github_repo_exists` (lines 36-70): `True` exactly when the `gh
api /repos/<user>/<repo>` call completes with return code 0. -/
def check_github_repo_exists (env : GhEnv) (username repo : List Char) : Bool :=
  match env.repoCheck username repo with
  | .completed r => decide (r.rc = 0)
  | _ => false

/-- The endpoint list built at get_user_repos lines 153-159. -/
def endpointsFor (env : GhEnv) (username : List Char) : List (List Char) :=
  match get_authenticated_username env with
  | some login =>
    if pyLower login = pyLower username then
      [strL "/user/repos", strL "/users/" ++ username ++ strL "/repos"]
    else [strL "/users/" ++ username ++ strL "/repos"]
  | none => [strL "/users/" ++ username ++ strL "/repos"]

/-- Python `" | ".join`. -/
def joinBar : List (List Char) → List Char
  | [] => []
  | [m] => m
  | m :: n :: rest => m ++ strL " | " ++ joinBar (n :: rest)

/-- The endpoint loop of `get_user_repos` (lines 163-184), returning the
repository list together with the printed diagnostics; `errors` accumulates
stripped stderr of failed endpoints. -/
def guLoop (env : GhEnv) : List (List Char) → List (List Char) →
    List Json × List (List Char)
  | errors, [] =>
    ([], [strL "✗ Error fetching repos: " ++
      pyStrip (joinBar (errors.filter (fun m => !m.isEmpty)))])
  | errors, e :: rest =>
    match env.paginate e with
    | .completed r =>
      if r.rc = 0 then
        match parse_paginated_json r.stdout with
        | .ok repos => (repos, [])
        | .error msg => ([], [strL "✗ Error parsing repo data: " ++ msg])
      else guLoop env (errors ++ [pyStrip r.stderr]) rest
    | .timeout => ([], [strL "✗ Timeout fetching repos"])
    | .fileNotFound m => ([], [strL "✗ Error fetching repos: " ++ m])

/-- `get_user_repos` (lines 141-194): repository list plus printed
diagnostics; every failure path returns an empty list with a diagnostic. -/
def get_user_repos (env : GhEnv) (username : List Char) :
    List Json × List (List Char) :=
  guLoop env [] (endpointsFor env username)

/-- One directory entry as seen by `Path.iterdir`. -/
structure FsEntry where
  name : List Char
  isDir : Bool

/-- The directory handed to the script: whether it exists, whether it is a
directory, and its entries. -/
structure FsEnv where
  pathExists : Bool
  isDir : Bool
  entries : List FsEntry

/-- Python `name.startswith(".")`. -/
def startsWithDot : List Char → Bool
  | '.' :: _ => true
  | _ => false

/-- `get_subdirectories` (lines 125-138). -/
def get_subdirectories (fs : FsEnv) : List FsEntry :=
  if fs.pathExists then
    fs.entries.filter (fun p => p.isDir && !startsWithDot p.name)
  else []

/-- Python string comparison (code-point lexicographic). -/
def lexLe : List Char → List Char → Bool
  | [], _ => true
  | _ :: _, [] => false
  | c :: cs, d :: ds =>
    if c.toNat < d.toNat then true
    else if d.toNat < c.toNat then false
    else lexLe cs ds

def insertBy {α : Type} (le : α → α → Bool) (x : α) : List α → List α
  | [] => [x]
  | y :: ys => if le x y then x :: y :: ys else y :: insertBy le x ys

/-- Stable insertion sort modelling Python `sorted`. -/
def sortBy {α : Type} (le : α → α → Bool) (l : List α) : List α :=
  l.foldr (insertBy le) []

/-- Python dict assignment `d[k] = v` on an insertion-ordered dict. -/
def dictUpsert {β : Type} : List (List Char × β) → List Char → β →
    List (List Char × β)
  | [], k, v => [(k, v)]
  | (k2, v2) :: rest, k, v =>
    if k2 = k then (k, v) :: rest else (k2, v2) :: dictUpsert rest k v

/-- `check_all_repos` (lines 197-237) reduced to its result dictionary,
keyed by subdirectory name with the per-name existence flag. -/
def check_all_repos (env : GhEnv) (fs : FsEnv) (username : List Char) :
    List (List Char × Bool) :=
  let subdirs := get_subdirectories fs
  if subdirs.isEmpty then []
  else
    (sortBy (fun a b => lexLe a.name b.name) subdirs).foldl
      (fun acc sub =>
        dictUpsert acc sub.name (check_github_repo_exists env username sub.name)) []

/-- Python `repo[key]`: `KeyError` when absent, `TypeError` when the value
is not a dict. -/
def getField (r : Json) (key : List Char) : Except PyErr Json :=
  match r with
  | .obj kvs =>
    match Json.lookup (Json.obj kvs) key with
    | some v => .ok v
    | none => .error (.keyError key)
  | _ => .error .typeError

/-- `repo["name"]` used as a sort key and dict key (a string on every
well-formed response). -/
def getName (r : Json) : Except PyErr (List Char) :=
  match getField r (strL "name") with
  | .ok (.str s) => .ok s
  | .ok _ => .error .typeError
  | .error e => .error e

/-- `check_missing_local` (lines 240-292) reduced to its result dictionary,
keyed by repository name with the local-existence flag; raises (as the
source does through `repo[...]`) when a repository record lacks the
accessed fields. -/
def check_missing_local (env : GhEnv) (fs : FsEnv) (username : List Char) :
    Except PyErr (List (List Char × Bool)) :=
  let all_repos := (get_user_repos env username).1
  if all_repos.isEmpty then .ok []
  else
    match all_repos.mapM getName with
    | .error e => .error e
    | .ok names =>
      match all_repos.mapM (fun r => getField r (strL "html_url")) with
      | .error e => .error e
      | .ok _ =>
        match all_repos.mapM (fun r => getField r (strL "clone_url")) with
        | .error e => .error e
        | .ok _ =>
          let localDirs := (get_subdirectories fs).map FsEntry.name
          .ok ((sortBy lexLe names).foldl
            (fun acc n => dictUpsert acc n (decide (n ∈ localDirs))) [])

/-- Command-line arguments of `check_gh_repos.py` (directory passed as
`FsEnv`). -/
structure Args where
  username : Option (List Char)
  verbose : Bool
  inverse : Bool
  quiet : Bool

/-- `args.username or get_authenticated_username()` (line 406). -/
def resolveUsername (env : GhEnv) (args : Args) : Option (List Char) :=
  match args.username with
  | some u => if u.isEmpty then get_authenticated_username env else some u
  | none => get_authenticated_username env

/-- `main` (lines 348-452) reduced to the process exit code; `.error`
captures an uncaught exception (itself a nonzero process exit). -/
def mainModel (env : GhEnv) (fs : FsEnv) (args : Args) : Except PyErr Nat :=
  match check_gh_installed env with
  | .error e => .error e
  | .ok installed =>
    if !installed then .ok 1
    else
      match resolveUsername env args with
      | none => .ok 1
      | some username =>
        if !fs.pathExists then .ok 1
        else if !fs.isDir then .ok 1
        else if args.inverse then
          match check_missing_local env fs username with
          | .error e => .error e
          | .ok results =>
            .ok (if results.countP (fun p => !p.2) = 0 then 0 else 1)
        else
          .ok (if (check_all_repos env fs username).countP (fun p => !p.2) = 0
            then 0 else 1)

/-- Scenario: authenticated as jwdeane, remote has only `proj-a`. -/
def ghEnvScenario : GhEnv :=
  ⟨.completed ⟨0, [], []⟩, .completed ⟨0, strL "jwdeane", []⟩,
   fun _ r => .completed ⟨if r = strL "proj-a" then 0 else 1, [], []⟩,
   fun _ => .timeout⟩

/-- Scenario: local directory with subfolders `proj-a` and `proj-b`. -/
def fsScenario : FsEnv :=
  ⟨true, true, [⟨strL "proj-a", true⟩, ⟨strL "proj-b", true⟩]⟩

/-- Scenario: default arguments (normal mode). -/
def argsScenario : Args := ⟨none, false, false, false⟩

/-! ## youtube_thumbnail_grabber.py -/

/-- `THUMBNAIL_EXTENSIONS` (line 10), in priority order. -/
def THUMBNAIL_EXTENSIONS : List (List Char) :=
  [strL ".jpg", strL ".jpeg", strL ".png", strL ".webp"]

/-- `extract_video_id` (lines 12-15): `re.search` of `\[([^\]]+)\]` — at
each position in turn, an opening bracket followed by one or more
non-`]` characters and a closing bracket; the first position that matches
wins, and a failed opening bracket resumes the scan just after it. -/
def extract_video_id : List Char → Option (List Char)
  | [] => none
  | '[' :: rest =>
    let inner := rest.takeWhile (fun c => !(c = ']'))
    if inner.isEmpty then extract_video_id rest
    else
      match rest.dropWhile (fun c => !(c = ']')) with
      | ']' :: _ => some inner
      | _ => extract_video_id rest
  | _ :: rest => extract_video_id rest

/-- `os.path.splitext` / `pathlib` stem-suffix split: the suffix starts at
the last dot, except that leading dots of the name never start a suffix. -/
def splitExt (name : List Char) : List Char × List Char :=
  let lead := name.takeWhile (fun c => c = '.')
  let rest := name.dropWhile (fun c => c = '.')
  let afterRev := rest.reverse.takeWhile (fun c => !(c = '.'))
  let restRev := rest.reverse.dropWhile (fun c => !(c = '.'))
  match restRev with
  | '.' :: stemRev => (lead ++ stemRev.reverse, '.' :: afterRev.reverse)
  | _ => (name, [])

/-- `Path.with_suffix`. -/
def withSuffix (name ext : List Char) : List Char :=
  (splitExt name).1 ++ ext

/-- `Path.suffix`. -/
def suffixOf (name : List Char) : List Char :=
  (splitExt name).2

/-- The extension loop of `find_existing_thumbnail` (lines 20-24). -/
def findExistLoop (files : List (List Char)) (base : List Char) :
    List (List Char) → Option (List Char)
  | [] => none
  | ext :: rest =>
    if (base ++ ext) ∈ files then some (base ++ ext)
    else findExistLoop files base rest

/-- `find_existing_thumbnail` (lines 17-24) over the names in the target
directory. -/
def find_existing_thumbnail (files : List (List Char)) (base : List Char) :
    Option (List Char) :=
  findExistLoop files base THUMBNAIL_EXTENSIONS

/-- The `with_suffix` loop of `find_downloaded_thumbnail` (lines 29-32). -/
def fdExtLoop (files : List (List Char)) (temp : List Char) :
    List (List Char) → Option (List Char)
  | [] => none
  | ext :: rest =>
    if withSuffix temp ext ∈ files then some (withSuffix temp ext)
    else fdExtLoop files temp rest

/-- The glob fallback of `find_downloaded_thumbnail` (lines 34-37): first
file named `temp.*` (directory order) whose suffix is not `.part`. -/
def fdGlob (temp : List Char) : List (List Char) → Option (List Char)
  | [] => none
  | f :: rest =>
    if (temp ++ strL ".").isPrefixOf f && !(pyLower (suffixOf f) = strL ".part")
    then some f
    else fdGlob temp rest

/-- `find_downloaded_thumbnail` (lines 27-38). -/
def find_downloaded_thumbnail (files : List (List Char)) (temp : List Char) :
    Option (List Char) :=
  match fdExtLoop files temp THUMBNAIL_EXTENSIONS with
  | some c => some c
  | none => fdGlob temp files

/-- Outcome of one `yt-dlp` invocation: files it created, a
`CalledProcessError` (nonzero exit under `check=True`), or another
exception. -/
inductive YtOutcome where
  | ok : List (List Char) → YtOutcome
  | fail : List Char → YtOutcome
  | err : List Char → YtOutcome

/-- The external downloader as seen by the script: video id and temp output
name determine the outcome. -/
structure YtEnv where
  fetch : List Char → List Char → YtOutcome

/-- `Path.rename` within one directory. -/
def rename (files : List (List Char)) (src dst : List Char) :
    List (List Char) :=
  files.map (fun f => if f = src then dst else f)

/-- Result of one `download_thumbnail` run: return value, directory
contents afterwards, number of downloader invocations, printed lines. -/
structure DtResult where
  ok : Bool
  files : List (List Char)
  invocations : Nat
  prints : List (List Char)

def youtubeUrl (vid : List Char) : List Char :=
  strL "https://www.youtube.com/watch?v=" ++ vid

/-- `download_thumbnail` (lines 41-93). -/
def download_thumbnail (env : YtEnv) (files : List (List Char))
    (vid base : List Char) (dry_run : Bool) : DtResult :=
  let url := youtubeUrl vid
  match find_existing_thumbnail files base with
  | some existing =>
    ⟨true, files, 0,
      [strL "Thumbnail already exists: " ++ existing ++ strL " (skipping)"]⟩
  | none =>
    if dry_run then
      ⟨true, files, 0,
        [strL "[DRY RUN] Would download: " ++ url,
         strL "[DRY RUN] Would save as: " ++ base ++ strL ".jpg"]⟩
    else
      let temp := strL "temp_" ++ vid
      match env.fetch vid temp with
      | .fail msg =>
        ⟨false, files, 1,
          [strL "✗ Failed to download thumbnail for " ++ vid ++ strL ": " ++ msg]⟩
      | .err msg =>
        ⟨false, files, 1,
          [strL "✗ Error processing " ++ vid ++ strL ": " ++ msg]⟩
      | .ok newFiles =>
        let files2 := files ++ newFiles
        match find_downloaded_thumbnail files2 temp with
        | some dl =>
          ⟨true, rename files2 dl (base ++ pyLower (suffixOf dl)), 1,
            [strL "✓ Downloaded thumbnail for " ++ base]⟩
        | none =>
          ⟨false, files2, 1, [strL "✗ Thumbnail file not found for " ++ vid]⟩

def natChars (n : Nat) : List Char :=
  Nat.toDigits 10 n

/-- Result of a `process_directory` run. -/
structure PdResult where
  processed : Nat
  successful : Nat
  files : List (List Char)
  invocations : Nat
  prints : List (List Char)

/-- The main loop of `process_directory` (lines 114-131): tasks are the
precomputed (filename, video id) pairs. -/
def pdGo (env : YtEnv) (dry : Bool) (total : Nat) :
    List (List Char × List Char) → List (List Char) → Nat → Nat → Nat →
    Nat → List (List Char) → PdResult
  | [], files, _, processed, successful, inv, prints =>
    ⟨processed, successful, files, inv, prints⟩
  | (f, vid) :: rest, files, idx, processed, successful, inv, prints =>
    let base := (splitExt f).1
    let r := download_thumbnail env files vid base dry
    pdGo env dry total rest r.files (idx + 1) (processed + 1)
      (successful + if r.ok then 1 else 0) (inv + r.invocations)
      (prints ++ [strL "Processing: " ++ f, strL "Video ID: " ++ vid] ++
        r.prints ++
        (if dry then []
         else [natChars (total - (idx + 1)) ++ strL " of " ++ natChars total ++
           strL " remaining", List.replicate 50 '-']))

/-- `process_directory` (lines 95-133) over the file names of one
directory (the recursive-traversal variant differs only in the file list
handed in). -/
def process_directory (env : YtEnv) (files : List (List Char)) (dry : Bool) :
    PdResult :=
  let tasks := files.filterMap (fun f =>
    match extract_video_id f with
    | some vid => some (f, vid)
    | none => none)
  pdGo env dry tasks.length tasks files 0 0 0 0 []

/-- The specification's reading of identifier extraction: `mid` is a
nonempty run of non-`]` characters enclosed by `[` and `]` at offset
`pre.length` of `s`. -/
def BracketMatch (s pre mid post : List Char) : Prop :=
  s = pre ++ '[' :: (mid ++ ']' :: post) ∧ mid ≠ [] ∧ ∀ c ∈ mid, c ≠ ']'

/-! ## List and whitespace utilities -/

theorem length_dropWhile_le (p : Char → Bool) (l : List Char) :
    (List.dropWhile p l).length ≤ l.length := by
  conv_rhs => rw [← List.takeWhile_append_dropWhile p l]
  rw [List.length_append]; omega

theorem dropWhile_append_of_ne_nil {p : Char → Bool} {A : List Char}
    (h : List.dropWhile p A ≠ []) (B : List Char) :
    List.dropWhile p (A ++ B) = List.dropWhile p A ++ B := by
  induction A with
  | nil => simp at h
  | cons c A ih =>
    by_cases hc : p c
    · simp only [List.cons_append, List.dropWhile_cons, hc, if_pos, if_true] at *
      exact ih h
    · simp only [List.cons_append, List.dropWhile_cons, hc] at *
      simp

theorem dropWhile_append_all {p : Char → Bool} {A : List Char}
    (h : ∀ c ∈ A, p c = true) (B : List Char) :
    List.dropWhile p (A ++ B) = List.dropWhile p B := by
  induction A with
  | nil => simp
  | cons c A ih =>
    have hc : p c = true := h c (by simp)
    simp only [List.cons_append, List.dropWhile_cons, hc, if_true]
    exact ih (fun x hx => h x (by simp [hx]))

theorem takeWhile_append_stop {p : Char → Bool} {B : List Char}
    (hB : headStops p B) (A : List Char) :
    List.takeWhile p (A ++ B) = List.takeWhile p A := by
  induction A with
  | nil =>
    cases B with
    | nil => simp
    | cons c B => simp only [headStops] at hB; simp [List.takeWhile_cons, hB]
  | cons c A ih =>
    by_cases hc : p c
    · simp only [List.cons_append, List.takeWhile_cons, hc, if_true]
      rw [ih]
    · simp [List.takeWhile_cons, hc]

theorem dropWhile_append_stop {p : Char → Bool} {B : List Char}
    (hB : headStops p B) (A : List Char) :
    List.dropWhile p (A ++ B) = List.dropWhile p A ++ B := by
  induction A with
  | nil =>
    cases B with
    | nil => simp
    | cons c B => simp only [headStops] at hB; simp [List.dropWhile_cons, hB]
  | cons c A ih =>
    by_cases hc : p c
    · simp only [List.cons_append, List.dropWhile_cons, hc, if_true]
      exact ih
    · simp [List.dropWhile_cons, hc]

theorem jsonWs_pyIsSpace {c : Char} (h : isJsonWs c = true) : pyIsSpace c = true := by
  simp only [isJsonWs, Bool.or_eq_true, decide_eq_true_eq] at h
  rcases h with ((h | h) | h) | h <;> subst h <;> decide

theorem EndsSolid.ne_nil {l : List Char} (h : EndsSolid l) : l ≠ [] := by
  rcases h with ⟨c, hc, _⟩
  intro he; subst he; simp at hc

theorem EndsSolid.append_left (l0 : List Char) {l : List Char} (h : EndsSolid l) :
    EndsSolid (l0 ++ l) := by
  rcases h with ⟨c, hc, hs⟩
  exact ⟨c, by rw [List.getLast?_append_of_ne_nil l0 (EndsSolid.ne_nil ⟨c, hc, hs⟩)]; exact hc, hs⟩

theorem EndsSolid.single {c : Char} (h : pyIsSpace c = false) (l0 : List Char) :
    EndsSolid (l0 ++ [c]) :=
  ⟨c, by simp, h⟩

theorem getLast?_cons_append_of_last {pre : List Char} {q : Char}
    (hlast : pre.getLast? = some q) (l0 : List Char) :
    (l0 ++ pre).getLast? = some q := by
  have hne : pre ≠ [] := by intro hc; simp [hc] at hlast
  rw [List.getLast?_append_of_ne_nil _ hne]; exact hlast

theorem psr_consume : ∀ cs s r, parseStringRest cs = some (s, r) →
    ∃ pre, cs = pre ++ r ∧ pre.getLast? = some '"' := by
  intro cs
  induction cs using parseStringRest.induct
  all_goals intro s r h
  all_goals rw [parseStringRest.eq_def] at h
  case case1 => simp at h
  case case2 rest =>
    simp at h
    exact ⟨['"'], by simp [h.2], by simp⟩
  case case3 => simp at h
  case case4 h1 h2 h3 h4 rest3 a b c2 d hx4 hx3 hx2 hx1 s0 r0 hrec hne ih =>
    simp [hx1, hx2, hx3, hx4, hrec] at h
    obtain ⟨pre, hpre, hlast⟩ := ih s0 r0 hrec
    refine ⟨'\\' :: 'u' :: h1 :: h2 :: h3 :: h4 :: pre, by simp [hpre, ← h.2], ?_⟩
    exact getLast?_cons_append_of_last hlast ['\\', 'u', h1, h2, h3, h4]
  case case5 h1 h2 h3 h4 rest3 a b c2 d hx4 hx3 hx2 hx1 hrec hne ih =>
    simp [hx1, hx2, hx3, hx4, hrec] at h
  case case6 h1 h2 h3 h4 rest3 hbad hne =>
    rcases hh1 : hexVal h1 with _ | a <;> rcases hh2 : hexVal h2 with _ | b <;>
      rcases hh3 : hexVal h3 with _ | c2 <;> rcases hh4 : hexVal h4 with _ | d <;>
      simp [hh1, hh2, hh3, hh4] at h
    exact absurd (hbad a b c2 d hh1 hh2 hh3 hh4) (by simp)
  case case7 rest2 hshape hne =>
    rcases rest2 with _ | ⟨a, _ | ⟨b, _ | ⟨c, _ | ⟨d, r5⟩⟩⟩⟩ <;>
      first
        | exact absurd (hshape _ _ _ _ _ rfl) not_false
        | simp at h
  case case8 e rest2 hnu c2 hesc s0 r0 hrec hne ih =>
    simp [hnu, hesc, hrec] at h
    obtain ⟨pre, hpre, hlast⟩ := ih s0 r0 hrec
    exact ⟨'\\' :: e :: pre, by simp [hpre, ← h.2],
      getLast?_cons_append_of_last hlast ['\\', e]⟩
  case case9 e rest2 hnu c2 hesc hrec hne ih =>
    simp [hnu, hesc, hrec] at h
  case case10 e rest2 hnu hesc hne =>
    simp [hnu, hesc] at h
  case case11 e rest2 hnq hnb hlt =>
    simp [hnq, hnb, hlt] at h
  case case12 e rest2 hnq hnb hge s0 r0 hrec ih =>
    simp [hnq, hnb, hge, hrec] at h
    obtain ⟨pre, hpre, hlast⟩ := ih s0 r0 hrec
    exact ⟨e :: pre, by simp [hpre, ← h.2],
      getLast?_cons_append_of_last hlast [e]⟩
  case case13 e rest2 hnq hnb hge hrec ih =>
    simp [hnq, hnb, hge, hrec] at h

theorem psr_ext : ∀ cs, ∀ (B s r : List Char), parseStringRest cs = some (s, r) →
    parseStringRest (cs ++ B) = some (s, r ++ B) := by
  intro cs
  induction cs using parseStringRest.induct
  all_goals intro B s r h
  all_goals rw [parseStringRest.eq_def] at h
  case case1 => simp at h
  case case2 rest =>
    simp at h
    rw [List.cons_append, parseStringRest.eq_def]
    simp [h.1, h.2]
  case case3 => simp at h
  case case4 h1 h2 h3 h4 rest3 a b c2 d hx4 hx3 hx2 hx1 s0 r0 hrec hne ih =>
    simp [hx1, hx2, hx3, hx4, hrec] at h
    have := ih B s0 r0 hrec
    rw [List.cons_append, parseStringRest.eq_def]
    simp [hx1, hx2, hx3, hx4, this, ← h.1, ← h.2]
  case case5 h1 h2 h3 h4 rest3 a b c2 d hx4 hx3 hx2 hx1 hrec hne ih =>
    simp [hx1, hx2, hx3, hx4, hrec] at h
  case case6 h1 h2 h3 h4 rest3 hbad hne =>
    rcases hh1 : hexVal h1 with _ | a <;> rcases hh2 : hexVal h2 with _ | b <;>
      rcases hh3 : hexVal h3 with _ | c2 <;> rcases hh4 : hexVal h4 with _ | d <;>
      simp [hh1, hh2, hh3, hh4] at h
    exact absurd (hbad a b c2 d hh1 hh2 hh3 hh4) not_false
  case case7 rest2 hshape hne =>
    rcases rest2 with _ | ⟨a, _ | ⟨b, _ | ⟨c, _ | ⟨d, r5⟩⟩⟩⟩ <;>
      first
        | exact absurd (hshape _ _ _ _ _ rfl) not_false
        | simp at h
  case case8 e rest2 hnu c2 hesc s0 r0 hrec hne ih =>
    simp [hnu, hesc, hrec] at h
    have := ih B s0 r0 hrec
    rw [List.cons_append, parseStringRest.eq_def]
    simp [hnu, hesc, this, ← h.1, ← h.2]
  case case9 e rest2 hnu c2 hesc hrec hne ih =>
    simp [hnu, hesc, hrec] at h
  case case10 e rest2 hnu hesc hne =>
    simp [hnu, hesc] at h
  case case11 e rest2 hnq hnb hlt =>
    simp [hnq, hnb, hlt] at h
  case case12 e rest2 hnq hnb hge s0 r0 hrec ih =>
    simp [hnq, hnb, hge, hrec] at h
    have := ih B s0 r0 hrec
    rw [List.cons_append, parseStringRest.eq_def]
    simp [hnq, hnb, hge, this, ← h.1, ← h.2]
  case case13 e rest2 hnq hnb hge hrec ih =>
    simp [hnq, hnb, hge, hrec] at h

theorem hexVal_ws {c : Char} (h : isJsonWs c = true) : hexVal c = none := by
  simp only [isJsonWs, Bool.or_eq_true, decide_eq_true_eq] at h
  rcases h with ((h | h) | h) | h <;> subst h <;> decide

theorem escChar_ws {c : Char} (h : isJsonWs c = true) : escChar c = none := by
  simp only [isJsonWs, Bool.or_eq_true, decide_eq_true_eq] at h
  rcases h with ((h | h) | h) | h <;> subst h <;> decide

theorem ws_facts {c : Char} (h : isJsonWs c = true) :
    c ≠ '"' ∧ c ≠ '\\' ∧ c ≠ 'u' ∧ c.val < 32 ∨ c = ' ' := by
  simp only [isJsonWs, Bool.or_eq_true, decide_eq_true_eq] at h
  rcases h with ((h | h) | h) | h <;> subst h <;> first | right; rfl | left; refine ⟨by decide, by decide, by decide, by decide⟩

/-- A nonempty all-whitespace input is not a valid string-literal rest. -/
theorem psr_allWs_none : ∀ cs, (∀ c ∈ cs, isJsonWs c = true) →
    parseStringRest cs = none := by
  intro cs
  induction cs using parseStringRest.induct
  all_goals intro hws
  all_goals rw [parseStringRest.eq_def]
  case case2 rest =>
    exact absurd (hws '"' (by simp)) (by decide)
  case case3 => exact absurd (hws '\\' (by simp)) (by decide)
  case case4 => exact absurd (hws '\\' (by simp)) (by decide)
  case case5 => exact absurd (hws '\\' (by simp)) (by decide)
  case case6 => exact absurd (hws '\\' (by simp)) (by decide)
  case case7 => exact absurd (hws '\\' (by simp)) (by decide)
  case case8 => exact absurd (hws '\\' (by simp)) (by decide)
  case case9 => exact absurd (hws '\\' (by simp)) (by decide)
  case case10 => exact absurd (hws '\\' (by simp)) (by decide)
  case case11 e rest2 hnq hnb hlt =>
    simp [hnq, hnb, hlt]
  case case12 e rest2 hnq hnb hge s0 r0 hrec ih =>
    have := ih (fun c hc => hws c (by simp [hc]))
    simp [this] at hrec
  case case13 e rest2 hnq hnb hge hrec ih =>
    simp [hnq, hnb, hge, hrec]

/-- Split an equation `A ++ tail = pre ++ r` with `tail` no longer than `r`
into `A = pre ++ mid` and `r = mid ++ tail`. -/
theorem append_eq_split {α : Type} {A tail pre r : List α}
    (h : A ++ tail = pre ++ r) (hlen : tail.length ≤ r.length) :
    ∃ mid, A = pre ++ mid ∧ r = mid ++ tail := by
  have hl : A.length + tail.length = pre.length + r.length := by
    have := congrArg List.length h
    simpa using this
  have hpre : pre.length ≤ A.length := by omega
  refine ⟨A.drop pre.length, ?_, ?_⟩
  · have h1 : (A ++ tail).take pre.length = A.take pre.length := by
      rw [List.take_append_eq_append_take]
      have : pre.length - A.length = 0 := by omega
      simp [this]
    have h2 : (pre ++ r).take pre.length = pre := by
      simp [List.take_append_eq_append_take]
    have h3 : A.take pre.length = pre := by rw [← h1, h, h2]
    conv_lhs => rw [← List.take_append_drop pre.length A]
    rw [h3]
  · have h1 : (A ++ tail).drop pre.length = A.drop pre.length ++ tail := by
      rw [List.drop_append_eq_append_drop]
      have : pre.length - A.length = 0 := by omega
      simp [this]
    have h2 : (pre ++ r).drop pre.length = r := by
      simp [List.drop_append_eq_append_drop]
    rw [← h2, ← h, h1]

/-! ## Character classification lemmas -/

theorem char_le_toNat {a b : Char} (h : a.val ≤ b.val) : a.toNat ≤ b.toNat := by
  rw [UInt32.le_def, BitVec.le_def] at h
  exact h

theorem isDigit_toNat {c : Char} (h : c.isDigit = true) :
    48 ≤ c.toNat ∧ c.toNat ≤ 57 := by
  simp only [Char.isDigit, decide_eq_true_eq, Bool.and_eq_true, ge_iff_le] at h
  obtain ⟨h1, h2⟩ := h
  rw [UInt32.le_def, BitVec.le_def] at h1 h2
  exact ⟨h1, h2⟩

theorem printable_not_space {c : Char} (h1 : 33 ≤ c.toNat) (h2 : c.toNat ≤ 0x84) :
    pyIsSpace c = false := by
  simp only [pyIsSpace, Bool.or_eq_false_iff, Bool.and_eq_false_iff,
    decide_eq_false_iff_not, not_le]
  omega

theorem isNumChar_not_space {c : Char} (h : isNumChar c = true) :
    pyIsSpace c = false := by
  simp only [isNumChar, Bool.or_eq_true, decide_eq_true_eq] at h
  rcases h with ((((hd | h) | h) | h) | h) | h
  · obtain ⟨h1, h2⟩ := isDigit_toNat hd
    exact printable_not_space (by omega) (by omega)
  all_goals subst h; decide

theorem ws_not_numChar {c : Char} (h : isJsonWs c = true) : isNumChar c = false := by
  simp only [isJsonWs, Bool.or_eq_true, decide_eq_true_eq] at h
  rcases h with ((h | h) | h) | h <;> subst h <;> decide

theorem dropWhile_head_false {p : Char → Bool} :
    ∀ {l c rs}, List.dropWhile p l = c :: rs → p c = false := by
  intro l
  induction l with
  | nil => intro c rs h; simp at h
  | cons a l ih =>
    intro c rs h
    by_cases ha : p a
    · rw [List.dropWhile_cons, if_pos ha] at h
      exact ih h
    · rw [List.dropWhile_cons, if_neg ha] at h
      obtain ⟨h1, _⟩ := by exact List.cons.inj h
      rw [← h1]
      exact Bool.of_not_eq_true ha

theorem takeWhile_all {p : Char → Bool} : ∀ {l : List Char},
    ∀ c ∈ List.takeWhile p l, p c = true := by
  intro l
  induction l with
  | nil => simp
  | cons a l ih =>
    intro c hc
    by_cases ha : p a
    · rw [List.takeWhile_cons, if_pos ha] at hc
      rcases List.mem_cons.mp hc with h | h
      · rw [h]; exact ha
      · exact ih c h
    · rw [List.takeWhile_cons, if_neg ha] at hc
      simp at hc

/-! ## Number scanner lemmas -/

theorem validNum_ne_nil {lex : List Char} (h : validNum lex = true) : lex ≠ [] := by
  intro he; subst he
  simp [validNum, validIntRest] at h

theorem pn_shape {cs : List Char} {v : Json} {r : List Char}
    (h : parseNumber cs = some (v, r)) :
    validNum (cs.takeWhile isNumChar) = true ∧
    v = .num (cs.takeWhile isNumChar) ∧ r = cs.dropWhile isNumChar := by
  by_cases hv : validNum (cs.takeWhile isNumChar)
  · simp [parseNumber, hv] at h
    exact ⟨hv, h.1.symm, h.2.symm⟩
  · simp [parseNumber, hv] at h

theorem takeWhile_idem {p : Char → Bool} {l : List Char} :
    List.takeWhile p (List.takeWhile p l) = List.takeWhile p l := by
  induction l with
  | nil => simp
  | cons a l ih =>
    by_cases ha : p a
    · rw [List.takeWhile_cons, if_pos ha, List.takeWhile_cons, if_pos ha, ih]
    · rw [List.takeWhile_cons, if_neg ha]
      simp

theorem dropWhile_takeWhile_nil {p : Char → Bool} {l : List Char} :
    List.dropWhile p (List.takeWhile p l) = [] := by
  rw [List.dropWhile_eq_nil_iff]
  exact fun x hx => takeWhile_all x hx

theorem pn_consume {cs : List Char} {v : Json} {r : List Char}
    (h : parseNumber cs = some (v, r)) :
    ∃ pre, cs = pre ++ r ∧ EndsSolid pre := by
  obtain ⟨hv, _, hr⟩ := pn_shape h
  refine ⟨cs.takeWhile isNumChar, by rw [hr, List.takeWhile_append_dropWhile], ?_⟩
  have hne : cs.takeWhile isNumChar ≠ [] := validNum_ne_nil hv
  refine ⟨(cs.takeWhile isNumChar).getLast hne,
    List.getLast?_eq_getLast_of_ne_nil hne, ?_⟩
  exact isNumChar_not_space (takeWhile_all _ (List.getLast_mem hne))

theorem pn_ext {A : List Char} {v : Json} {r B : List Char}
    (h : parseNumber A = some (v, r)) (hB : r = [] → headStops isNumChar B) :
    parseNumber (A ++ B) = some (v, r ++ B) := by
  obtain ⟨hv, hveq, hr⟩ := pn_shape h
  have hstop : headStops isNumChar (A.dropWhile isNumChar ++ B) := by
    rcases hd : A.dropWhile isNumChar with _ | ⟨c, rs⟩
    · simp only [List.nil_append]
      exact hB (by rw [hr, hd])
    · simp only [List.cons_append, headStops]
      exact dropWhile_head_false hd
  have h1 : (A ++ B).takeWhile isNumChar = A.takeWhile isNumChar := by
    conv_lhs => rw [← List.takeWhile_append_dropWhile isNumChar A,
      List.append_assoc]
    rw [takeWhile_append_stop hstop, takeWhile_idem]
  have h2 : (A ++ B).dropWhile isNumChar = A.dropWhile isNumChar ++ B := by
    conv_lhs => rw [← List.takeWhile_append_dropWhile isNumChar A,
      List.append_assoc]
    rw [dropWhile_append_stop hstop, dropWhile_takeWhile_nil, List.nil_append]
  simp [parseNumber, h1, h2, hv, hveq, hr]

theorem pn_trunc {A tail : List Char} {v : Json} {r : List Char}
    (htail : ∀ c ∈ tail, isJsonWs c = true)
    (h : parseNumber (A ++ tail) = some (v, r)) :
    ∃ r2, r = r2 ++ tail ∧ parseNumber A = some (v, r2) := by
  have hstop : headStops isNumChar tail := by
    rcases tail with _ | ⟨c, rs⟩
    · trivial
    · exact ws_not_numChar (htail c (by simp))
  obtain ⟨hv, hveq, hr⟩ := pn_shape h
  rw [takeWhile_append_stop hstop] at hv hveq
  rw [dropWhile_append_stop hstop] at hr
  exact ⟨A.dropWhile isNumChar, hr, by simp [parseNumber, hv, hveq]⟩

/-! ## Literal prefix lemmas -/

theorem drop_append_of_le {A B : List Char} {n : Nat} (h : n ≤ A.length) :
    (A ++ B).drop n = A.drop n ++ B := by
  rw [List.drop_append_eq_append_drop]
  have : n - A.length = 0 := by omega
  simp [this]

theorem ws_char_ne {c : Char} (h : isJsonWs c = true) :
    c ≠ '"' ∧ c ≠ '\\' ∧ c ≠ 'u' := by
  simp only [isJsonWs, Bool.or_eq_true, decide_eq_true_eq] at h
  rcases h with ((h | h) | h) | h <;> subst h <;> refine ⟨by decide, by decide, by decide⟩

theorem prefix_ext {lit A : List Char} (B : List Char) (h : lit.isPrefixOf A = true) :
    lit.isPrefixOf (A ++ B) = true ∧
    (A ++ B).drop lit.length = A.drop lit.length ++ B := by
  have hp : lit <+: A := by
    rw [← List.isPrefixOf_iff_prefix]; exact h
  have hlen : lit.length ≤ A.length := hp.length_le
  constructor
  · rw [List.isPrefixOf_iff_prefix]
    exact hp.trans (List.prefix_append A B)
  · exact drop_append_of_le hlen

theorem prefix_trunc (lit : List Char)
    (hlit : ∀ c ∈ lit, isJsonWs c = false) :
    ∀ A {tail : List Char}, (∀ c ∈ tail, isJsonWs c = true) →
    lit.isPrefixOf (A ++ tail) = true →
    lit.isPrefixOf A = true ∧
    (A ++ tail).drop lit.length = A.drop lit.length ++ tail := by
  induction lit with
  | nil => intro A tail hws h; simp [List.isPrefixOf]
  | cons c lit ih =>
    intro A tail hws h
    cases A with
    | nil =>
      rw [List.nil_append] at h
      cases tail with
      | nil => simp [List.isPrefixOf] at h
      | cons w t =>
        simp only [List.isPrefixOf, Bool.and_eq_true, beq_iff_eq] at h
        rw [h.1] at hlit
        exact absurd (hws w (by simp)) (by simp [hlit w (by simp)])
    | cons a A2 =>
      simp only [List.cons_append, List.isPrefixOf, Bool.and_eq_true] at h
      obtain ⟨hca, hpre⟩ := h
      obtain ⟨ih1, ih2⟩ := ih (fun x hx => hlit x (by simp [hx])) A2 hws hpre
      refine ⟨by simp only [List.isPrefixOf, Bool.and_eq_true]; exact ⟨hca, ih1⟩, ?_⟩
      simp only [List.length_cons, List.cons_append, List.drop_succ_cons]
      exact ih2

/-- Removing an all-whitespace suffix from the input of a successful
string-literal scan keeps it successful. -/
theorem psr_trunc : ∀ A (tail s r : List Char), (∀ c ∈ tail, isJsonWs c = true) →
    parseStringRest (A ++ tail) = some (s, r) → tail.length ≤ r.length →
    ∃ r2, r = r2 ++ tail ∧ parseStringRest A = some (s, r2) := by
  intro A
  induction A using parseStringRest.induct
  all_goals intro tail s r hws h hlen
  case case1 =>
    rw [List.nil_append, psr_allWs_none tail hws] at h
    exact absurd h (by simp)
  case case2 rest =>
    rw [List.cons_append, parseStringRest.eq_def] at h
    simp at h
    exact ⟨rest, h.2.symm, by rw [parseStringRest.eq_def]; simp [h.1]⟩
  case case3 hne =>
    rw [List.cons_append, List.nil_append, parseStringRest.eq_def] at h
    cases tail with
    | nil => simp at h
    | cons w t =>
      have hw := hws w (by simp)
      simp [(ws_char_ne hw).2.2, escChar_ws hw] at h
  case case4 h1 h2 h3 h4 rest3 a b c2 d hx4 hx3 hx2 hx1 s0 r0 hrec hne ih =>
    simp only [List.cons_append] at h
    rw [parseStringRest.eq_def] at h
    rcases hp : parseStringRest (rest3 ++ tail) with _ | ⟨s1, r1⟩ <;>
      simp [hx1, hx2, hx3, hx4, hp] at h
    obtain ⟨r2, hr2, hA⟩ := ih tail s1 r1 hws hp (by rw [h.2]; exact hlen)
    refine ⟨r2, by rw [← h.2, hr2], ?_⟩
    rw [parseStringRest.eq_def]
    simp [hx1, hx2, hx3, hx4, hA, ← h.1]
  case case5 h1 h2 h3 h4 rest3 a b c2 d hx4 hx3 hx2 hx1 hrec hne ih =>
    simp only [List.cons_append] at h
    rw [parseStringRest.eq_def] at h
    rcases hp : parseStringRest (rest3 ++ tail) with _ | ⟨s1, r1⟩ <;>
      simp [hx1, hx2, hx3, hx4, hp] at h
    obtain ⟨r2, hr2, hA⟩ := ih tail s1 r1 hws hp (by rw [h.2]; exact hlen)
    refine ⟨r2, by rw [← h.2, hr2], ?_⟩
    rw [parseStringRest.eq_def]
    simp [hx1, hx2, hx3, hx4, hA, ← h.1]
  case case6 h1 h2 h3 h4 rest3 hbad hne =>
    simp only [List.cons_append] at h
    rw [parseStringRest.eq_def] at h
    rcases hh1 : hexVal h1 with _ | a <;> rcases hh2 : hexVal h2 with _ | b <;>
      rcases hh3 : hexVal h3 with _ | c2 <;> rcases hh4 : hexVal h4 with _ | d <;>
      simp [hh1, hh2, hh3, hh4] at h
    · rcases hp : parseStringRest (rest3 ++ tail) with _ | ⟨s1, r1⟩ <;> simp [hp] at h
      all_goals exact absurd (hbad a b c2 d hh1 hh2 hh3 hh4) not_false
  case case7 rest2 hshape hne =>
    rcases rest2 with _ | ⟨a, _ | ⟨b, _ | ⟨c, _ | ⟨d, r5⟩⟩⟩⟩
    case cons.cons.cons.cons => exact absurd (hshape _ _ _ _ _ rfl) not_false
    all_goals simp only [List.cons_append, List.nil_append] at h
    all_goals rw [parseStringRest.eq_def] at h
    · rcases tail with _ | ⟨w1, _ | ⟨w2, _ | ⟨w3, _ | ⟨w4, t4⟩⟩⟩⟩
      · simp at h
      · simp at h
      · simp at h
      · simp at h
      · simp [hexVal_ws (hws w1 (by simp))] at h
    · rcases tail with _ | ⟨w1, _ | ⟨w2, _ | ⟨w3, t3⟩⟩⟩
      · simp at h
      · simp at h
      · simp at h
      · rcases hha : hexVal a with _ | av
        · simp [hha] at h
        · simp [hha, hexVal_ws (hws w1 (by simp))] at h
    · rcases tail with _ | ⟨w1, _ | ⟨w2, t2⟩⟩
      · simp at h
      · simp at h
      · rcases hha : hexVal a with _ | av
        · simp [hha] at h
        · rcases hhb : hexVal b with _ | bv
          · simp [hha, hhb] at h
          · simp [hha, hhb, hexVal_ws (hws w1 (by simp))] at h
    · rcases tail with _ | ⟨w1, t1⟩
      · simp at h
      · rcases hha : hexVal a with _ | av
        · simp [hha] at h
        · rcases hhb : hexVal b with _ | bv
          · simp [hha, hhb] at h
          · rcases hhc : hexVal c with _ | cv
            · simp [hha, hhb, hhc] at h
            · simp [hha, hhb, hhc, hexVal_ws (hws w1 (by simp))] at h
  case case8 e rest2 hnu c2 hesc s0 r0 hrec hne ih =>
    simp only [List.cons_append] at h
    rw [parseStringRest.eq_def] at h
    rcases hp : parseStringRest (rest2 ++ tail) with _ | ⟨s1, r1⟩ <;>
      simp [hnu, hesc, hp] at h
    obtain ⟨r2, hr2, hA⟩ := ih tail s1 r1 hws hp (by rw [h.2]; exact hlen)
    refine ⟨r2, by rw [← h.2, hr2], ?_⟩
    rw [parseStringRest.eq_def]
    simp [hnu, hesc, hA, ← h.1]
  case case9 e rest2 hnu c2 hesc hrec hne ih =>
    simp only [List.cons_append] at h
    rw [parseStringRest.eq_def] at h
    rcases hp : parseStringRest (rest2 ++ tail) with _ | ⟨s1, r1⟩ <;>
      simp [hnu, hesc, hp] at h
    obtain ⟨r2, hr2, hA⟩ := ih tail s1 r1 hws hp (by rw [h.2]; exact hlen)
    refine ⟨r2, by rw [← h.2, hr2], ?_⟩
    rw [parseStringRest.eq_def]
    simp [hnu, hesc, hA, ← h.1]
  case case10 e rest2 hnu hesc hne =>
    simp only [List.cons_append] at h
    rw [parseStringRest.eq_def] at h
    simp [hnu, hesc] at h
  case case11 e rest2 hnq hnb hlt =>
    simp only [List.cons_append] at h
    rw [parseStringRest.eq_def] at h
    simp [hnq, hnb, hlt] at h
  case case12 e rest2 hnq hnb hge s0 r0 hrec ih =>
    simp only [List.cons_append] at h
    rw [parseStringRest.eq_def] at h
    rcases hp : parseStringRest (rest2 ++ tail) with _ | ⟨s1, r1⟩ <;>
      simp [hnq, hnb, hge, hp] at h
    obtain ⟨r2, hr2, hA⟩ := ih tail s1 r1 hws hp (by rw [h.2]; exact hlen)
    refine ⟨r2, by rw [← h.2, hr2], ?_⟩
    rw [parseStringRest.eq_def]
    simp [hnq, hnb, hge, hA, ← h.1]
  case case13 e rest2 hnq hnb hge hrec ih =>
    simp only [List.cons_append] at h
    rw [parseStringRest.eq_def] at h
    rcases hp : parseStringRest (rest2 ++ tail) with _ | ⟨s1, r1⟩ <;>
      simp [hnq, hnb, hge, hp] at h
    obtain ⟨r2, hr2, hA⟩ := ih tail s1 r1 hws hp (by rw [h.2]; exact hlen)
    refine ⟨r2, by rw [← h.2, hr2], ?_⟩
    rw [parseStringRest.eq_def]
    simp [hnq, hnb, hge, hA, ← h.1]

/-! ## Value scanner lemmas -/

theorem skipWs_decomp (cs : List Char) :
    cs = cs.takeWhile isJsonWs ++ skipWs cs :=
  (List.takeWhile_append_dropWhile _ _).symm

theorem takeWhile_ws_all {cs : List Char} :
    ∀ c ∈ cs.takeWhile isJsonWs, isJsonWs c = true :=
  fun c hc => takeWhile_all c hc

theorem pj_zero {m : PM} {cs : List Char} : pj 0 m cs = none := rfl

/-- A successful scan consumes a nonempty prefix whose last character is not
whitespace. -/
theorem pj_consume : ∀ f m cs v r, pj f m cs = some (v, r) →
    ∃ pre, cs = pre ++ r ∧ EndsSolid pre := by
  intro f
  induction f with
  | zero => intro m cs v r h; simp [pj] at h
  | succ f ih =>
    intro m cs v r h
    match m with
    | .value =>
      match cs with
      | [] => simp [pj] at h
      | c :: rest =>
        simp only [pj] at h
        split at h
        next hc1 =>
          split at h
          next x r2 hsw =>
            simp only [Option.some.injEq, Prod.mk.injEq] at h
            subst hc1
            refine ⟨'{' :: rest.takeWhile isJsonWs ++ ['}'], ?_,
              EndsSolid.single (by decide) _⟩
            conv_lhs => rw [skipWs_decomp rest, hsw]
            simp [← h.2]
          next x hno =>
            obtain ⟨pre, hpre, hsolid⟩ := ih _ _ _ _ h
            subst hc1
            refine ⟨'{' :: rest.takeWhile isJsonWs ++ pre, ?_,
              hsolid.append_left _⟩
            conv_lhs => rw [skipWs_decomp rest]
            simp [hpre]
        next hnc1 =>
          split at h
          next hc2 =>
            split at h
            next x r2 hsw =>
              simp only [Option.some.injEq, Prod.mk.injEq] at h
              subst hc2
              refine ⟨'[' :: rest.takeWhile isJsonWs ++ [']'], ?_,
                EndsSolid.single (by decide) _⟩
              conv_lhs => rw [skipWs_decomp rest, hsw]
              simp [← h.2]
            next x hno =>
              obtain ⟨pre, hpre, hsolid⟩ := ih _ _ _ _ h
              subst hc2
              refine ⟨'[' :: rest.takeWhile isJsonWs ++ pre, ?_,
                hsolid.append_left _⟩
              conv_lhs => rw [skipWs_decomp rest]
              simp [hpre]
          next hnc2 =>
            split at h
            next hc3 =>
              split at h
              next x s0 r0 hpsr =>
                simp only [Option.some.injEq, Prod.mk.injEq] at h
                obtain ⟨pre, hpre, hlast⟩ := psr_consume rest s0 r0 hpsr
                subst hc3
                refine ⟨'"' :: pre, by simp [hpre, ← h.2], ?_⟩
                exact ⟨'"', getLast?_cons_append_of_last hlast ['"'], by decide⟩
              next x hno => simp at h
            next hnc3 =>
              split at h
              next hc =>
                split at h
                next hpref =>
                  simp only [Option.some.injEq, Prod.mk.injEq] at h
                  obtain ⟨t, ht⟩ := List.isPrefixOf_iff_prefix.mp hpref
                  refine ⟨strL "true", ?_, ⟨'e', by decide, by decide⟩⟩
                  rw [← h.2, ← ht]
                  rw [show (4 : Nat) = (strL "true").length from rfl, List.drop_left]
                next hnpref => simp at h
              next hnc =>
                split at h
                next hc =>
                  split at h
                  next hpref =>
                    simp only [Option.some.injEq, Prod.mk.injEq] at h
                    obtain ⟨t, ht⟩ := List.isPrefixOf_iff_prefix.mp hpref
                    refine ⟨strL "false", ?_, ⟨'e', by decide, by decide⟩⟩
                    rw [← h.2, ← ht]
                    rw [show (5 : Nat) = (strL "false").length from rfl, List.drop_left]
                  next hnpref => simp at h
                next hnc =>
                  split at h
                  next hc =>
                    split at h
                    next hpref =>
                      simp only [Option.some.injEq, Prod.mk.injEq] at h
                      obtain ⟨t, ht⟩ := List.isPrefixOf_iff_prefix.mp hpref
                      refine ⟨strL "null", ?_, ⟨'l', by decide, by decide⟩⟩
                      rw [← h.2, ← ht]
                      rw [show (4 : Nat) = (strL "null").length from rfl, List.drop_left]
                    next hnpref => simp at h
                  next hnc =>
                    split at h
                    next hc =>
                      split at h
                      next hpref =>
                        simp only [Option.some.injEq, Prod.mk.injEq] at h
                        obtain ⟨t, ht⟩ := List.isPrefixOf_iff_prefix.mp hpref
                        refine ⟨strL "NaN", ?_, ⟨'N', by decide, by decide⟩⟩
                        rw [← h.2, ← ht]
                        rw [show (3 : Nat) = (strL "NaN").length from rfl, List.drop_left]
                      next hnpref => simp at h
                    next hnc =>
                      split at h
                      next hc =>
                        split at h
                        next hpref =>
                          simp only [Option.some.injEq, Prod.mk.injEq] at h
                          obtain ⟨t, ht⟩ := List.isPrefixOf_iff_prefix.mp hpref
                          refine ⟨strL "Infinity", ?_, ⟨'y', by decide, by decide⟩⟩
                          rw [← h.2, ← ht]
                          rw [show (8 : Nat) = (strL "Infinity").length from rfl, List.drop_left]
                        next hnpref => simp at h
                      next hnc =>
                        split at h
                        next hcond =>
                          simp only [Bool.and_eq_true, decide_eq_true_eq] at hcond
                          simp only [Option.some.injEq, Prod.mk.injEq] at h
                          obtain ⟨t, ht⟩ := List.isPrefixOf_iff_prefix.mp hcond.2
                          refine ⟨strL "-Infinity", ?_, ⟨'y', by decide, by decide⟩⟩
                          rw [← h.2, ← ht]
                          rw [show (9 : Nat) = (strL "-Infinity").length from rfl, List.drop_left]
                        next hcond =>
                          exact pn_consume h
    | .elems =>
      simp only [pj] at h
      split at h
      next hval => simp at h
      next x v1 r1 hval =>
        split at h
        next x2 r3 hsw =>
          simp only [Option.some.injEq, Prod.mk.injEq] at h
          obtain ⟨pre1, hpre1, hsolid1⟩ := ih _ _ _ _ hval
          refine ⟨pre1 ++ r1.takeWhile isJsonWs ++ [']'], ?_,
            EndsSolid.single (by decide) _⟩
          rw [hpre1]
          conv_lhs => rw [skipWs_decomp r1, hsw]
          simp [← h.2]
        next x2 r3 hsw =>
          split at h
          next x3 vs r4 helems =>
            simp only [Option.some.injEq, Prod.mk.injEq] at h
            obtain ⟨pre1, hpre1, hsolid1⟩ := ih _ _ _ _ hval
            obtain ⟨pre2, hpre2, hsolid2⟩ := ih _ _ _ _ helems
            refine ⟨(pre1 ++ r1.takeWhile isJsonWs ++ ',' ::
              r3.takeWhile isJsonWs) ++ pre2, ?_, hsolid2.append_left _⟩
            rw [hpre1]
            conv_lhs => rw [skipWs_decomp r1, hsw]
            conv_lhs => rw [skipWs_decomp r3, hpre2]
            simp [← h.2]
          next hother => simp at h
        next x2 hno1 hno2 => simp at h
    | .members =>
      match cs with
      | [] => simp [pj] at h
      | c :: s0 =>
        simp only [pj] at h
        split at h
        next cc hkey =>
          obtain ⟨hc, hs0⟩ := by exact List.cons.inj hkey
          subst hc
          subst hs0
          split at h
          next hpsr => simp at h
          next x key r1 hpsr =>
            split at h
            next x2 r2 hcolon =>
              split at h
              next hval => simp at h
              next x3 v1 r3 hval =>
                split at h
                next x4 r4 hbrace =>
                  simp only [Option.some.injEq, Prod.mk.injEq] at h
                  obtain ⟨prek, hprek, hlastk⟩ := psr_consume _ _ _ hpsr
                  obtain ⟨prev, hprev, hsolidv⟩ := ih _ _ _ _ hval
                  refine ⟨'"' :: prek ++ r1.takeWhile isJsonWs ++ ':' ::
                    (r2.takeWhile isJsonWs ++ prev) ++
                    r3.takeWhile isJsonWs ++ ['}'], ?_,
                    EndsSolid.single (by decide) _⟩
                  conv_lhs => rw [hprek]
                  conv_lhs => rw [skipWs_decomp r1, hcolon]
                  conv_lhs => rw [skipWs_decomp r2, hprev]
                  conv_lhs => rw [skipWs_decomp r3, hbrace]
                  simp [← h.2]
                next x4 r4 hcomma =>
                  split at h
                  next x5 kvs r5 hmem =>
                    simp only [Option.some.injEq, Prod.mk.injEq] at h
                    obtain ⟨prek, hprek, hlastk⟩ := psr_consume _ _ _ hpsr
                    obtain ⟨prev, hprev, hsolidv⟩ := ih _ _ _ _ hval
                    obtain ⟨prem, hprem, hsolidm⟩ := ih _ _ _ _ hmem
                    refine ⟨('"' :: prek ++ r1.takeWhile isJsonWs ++ ':' ::
                      (r2.takeWhile isJsonWs ++ prev) ++
                      r3.takeWhile isJsonWs ++ ',' ::
                      r4.takeWhile isJsonWs) ++ prem, ?_,
                      hsolidm.append_left _⟩
                    conv_lhs => rw [hprek]
                    conv_lhs => rw [skipWs_decomp r1, hcolon]
                    conv_lhs => rw [skipWs_decomp r2, hprev]
                    conv_lhs => rw [skipWs_decomp r3, hcomma]
                    conv_lhs => rw [skipWs_decomp r4, hprem]
                    simp [← h.2]
                  next hother => simp at h
                next x4 hno1 hno2 => simp at h
            next x2 hno => simp at h
        next hnkey => simp at h

/-- Fuel adequacy: a scan that succeeds with any fuel succeeds with every
fuel of at least twice the input length (plus the mode rank). -/
theorem pj_adequate : ∀ f m cs v r, pj f m cs = some (v, r) →
    ∀ g, 2 * cs.length + 1 + pmRank m ≤ g → pj g m cs = some (v, r) := by
  intro f
  induction f with
  | zero => intro m cs v r h; simp [pj] at h
  | succ f ih =>
    intro m cs v r h g hg
    obtain ⟨g', rfl⟩ : ∃ g2, g = g2 + 1 := ⟨g - 1, by omega⟩
    match m with
    | .value =>
      match cs with
      | [] => simp [pj] at h
      | c :: rest =>
        simp only [pj] at h ⊢
        split at h
        next hc1 =>
          rw [if_pos hc1]
          split at h
          next x r2 hsw => exact h
          next x hno =>
            exact ih _ _ _ _ h g' (by
              have hd := length_dropWhile_le isJsonWs rest
              simp only [List.length_cons, pmRank] at hg ⊢
              simp only [skipWs] at *
              omega)
        next hnc1 =>
          rw [if_neg hnc1]
          split at h
          next hc2 =>
            rw [if_pos hc2]
            split at h
            next x r2 hsw => exact h
            next x hno =>
              exact ih _ _ _ _ h g' (by
                have hd := length_dropWhile_le isJsonWs rest
                simp only [List.length_cons, pmRank] at hg ⊢
                simp only [skipWs] at *
                omega)
          next hnc2 =>
            rw [if_neg hnc2]
            split at h
            next hc3 =>
              rw [if_pos hc3]
              split at h
              next x s0 r0 hpsr => exact h
              next x hno => simp at h
            next hnc3 =>
              rw [if_neg hnc3]
              split at h
              next hc =>
                rw [if_pos hc]
                split at h
                next hpref =>
                  rw [if_pos hpref]
                  exact h
                next hnpref => simp at h
              next hnc =>
                rw [if_neg hnc]
                split at h
                next hc =>
                  rw [if_pos hc]
                  split at h
                  next hpref =>
                    rw [if_pos hpref]
                    exact h
                  next hnpref => simp at h
                next hnc =>
                  rw [if_neg hnc]
                  split at h
                  next hc =>
                    rw [if_pos hc]
                    split at h
                    next hpref =>
                      rw [if_pos hpref]
                      exact h
                    next hnpref => simp at h
                  next hnc =>
                    rw [if_neg hnc]
                    split at h
                    next hc =>
                      rw [if_pos hc]
                      split at h
                      next hpref =>
                        rw [if_pos hpref]
                        exact h
                      next hnpref => simp at h
                    next hnc =>
                      rw [if_neg hnc]
                      split at h
                      next hc =>
                        rw [if_pos hc]
                        split at h
                        next hpref =>
                          rw [if_pos hpref]
                          exact h
                        next hnpref => simp at h
                      next hnc =>
                        rw [if_neg hnc]
                        split at h
                        next hcond =>
                          rw [if_pos hcond]
                          exact h
                        next hcond =>
                          rw [if_neg hcond]
                          exact h
    | .elems =>
      simp only [pj] at h ⊢
      split at h
      next hval => simp at h
      next x v1 r1 hval =>
        have hr1 : r1.length ≤ cs.length := by
          obtain ⟨pre, hpre, _⟩ := pj_consume _ _ _ _ _ hval
          rw [hpre]; simp
        have hval2 : pj g' .value cs = some (v1, r1) :=
          ih _ _ _ _ hval g' (by simp only [pmRank] at hg ⊢; omega)
        simp only [hval2]
        split at h
        next x2 r3 hsw => exact h
        next x2 r3 hsw =>
          split at h
          next x3 vs r4 helems =>
            have hr3 : r3.length < r1.length := by
              have h1 : (skipWs r1).length ≤ r1.length := length_dropWhile_le _ _
              rw [hsw] at h1
              simp at h1
              omega
            have helems2 : pj g' .elems (skipWs r3) = some (.arr vs, r4) :=
              ih _ _ _ _ helems g' (by
                have hd := length_dropWhile_le isJsonWs r3
                simp only [pmRank, skipWs] at hg ⊢
                omega)
            simp only [helems2]
            exact h
          next hother => simp at h
        next x2 hno1 hno2 => simp at h
    | .members =>
      match cs with
      | [] => simp [pj] at h
      | c :: s0 =>
        simp only [pj] at h ⊢
        split at h
        next cc hkey =>
          obtain ⟨hc, hs0⟩ := by exact List.cons.inj hkey
          subst hc
          subst hs0
          split at h
          next hpsr => simp at h
          next x key r1 hpsr =>
            have hr1 : r1.length ≤ s0.length := by
              obtain ⟨pre, hpre, _⟩ := psr_consume _ _ _ hpsr
              rw [hpre]; simp
            split at h
            next x2 r2 hcolon =>
              have hr2 : r2.length < r1.length := by
                have h1 : (skipWs r1).length ≤ r1.length := length_dropWhile_le _ _
                rw [hcolon] at h1
                simp at h1
                omega
              split at h
              next hval => simp at h
              next x3 v1 r3 hval =>
                have hr3 : r3.length ≤ (skipWs r2).length := by
                  obtain ⟨pre, hpre, _⟩ := pj_consume _ _ _ _ _ hval
                  rw [hpre]; simp
                have hr2b : (skipWs r2).length ≤ r2.length := length_dropWhile_le _ _
                have hval2 : pj g' .value (skipWs r2) = some (v1, r3) :=
                  ih _ _ _ _ hval g' (by
                    simp only [pmRank, List.length_cons] at hg ⊢
                    simp only [skipWs] at *
                    omega)
                simp only [hval2]
                split at h
                next x4 r4 hbrace => exact h
                next x4 r4 hcomma =>
                  split at h
                  next x5 kvs r5 hmem =>
                    have hr4 : r4.length < r3.length := by
                      have h1 : (skipWs r3).length ≤ r3.length := length_dropWhile_le _ _
                      rw [hcomma] at h1
                      simp at h1
                      omega
                    have hmem2 : pj g' .members (skipWs r4) = some (.obj kvs, r5) :=
                      ih _ _ _ _ hmem g' (by
                        have hd := length_dropWhile_le isJsonWs r4
                        simp only [pmRank, List.length_cons] at hg ⊢
                        simp only [skipWs] at *
                        omega)
                    simp only [hmem2]
                    exact h
                  next hother => simp at h
                next x4 hno1 hno2 => simp at h
            next x2 hno => simp at h
        next hnkey => simp at h

theorem skipWs_append_of_ne_nil {A : List Char} (h : skipWs A ≠ []) (B : List Char) :
    skipWs (A ++ B) = skipWs A ++ B :=
  dropWhile_append_of_ne_nil h B

theorem pj_value_nil : ∀ f, pj f .value [] = none := by
  intro f; cases f <;> simp [pj]

theorem pj_elems_nil : ∀ f, pj f .elems [] = none := by
  intro f
  cases f with
  | zero => simp [pj]
  | succ f => simp [pj, pj_value_nil]

theorem pj_members_nil : ∀ f, pj f .members [] = none := by
  intro f; cases f <;> simp [pj]

theorem validIntRest_head {xs : List Char} (h : validIntRest xs = true) :
    ∃ d t, xs = d :: t ∧ d.isDigit = true := by
  cases xs with
  | nil => simp [validIntRest] at h
  | cons d t =>
    refine ⟨d, t, rfl, ?_⟩
    by_cases hd : d = '0'
    · subst hd; decide
    · rw [validIntRest.eq_def] at h
      simp only at h
      simp only [Bool.and_eq_true] at h
      exact h.1

theorem takeWhile_head2 {p : Char → Bool} {l t : List Char} {x : Char}
    (h : l.takeWhile p = x :: t) : ∃ t2, l = x :: t2 ∧ p x = true := by
  cases l with
  | nil => simp at h
  | cons a l2 =>
    rw [List.takeWhile_cons] at h
    by_cases ha : p a
    · rw [if_pos ha] at h
      obtain ⟨h1, _⟩ := by exact List.cons.inj h
      exact ⟨l2, by rw [h1], by rw [← h1]; exact ha⟩
    · rw [if_neg ha] at h
      simp at h

/-- Appending to the input of a successful scan leaves the scanned value
unchanged and appends to the rest, provided a top-level number is not
extended by the first appended character. -/
theorem pj_ext : ∀ f m cs v r B, pj f m cs = some (v, r) →
    (m = PM.value → r = [] → headStops isNumChar B) →
    pj f m (cs ++ B) = some (v, r ++ B) := by
  intro f
  induction f with
  | zero => intro m cs v r B h hnum; simp [pj] at h
  | succ f ih =>
    intro m cs v r B h hnum
    match m with
    | .value =>
      match cs with
      | [] => simp [pj] at h
      | c :: rest =>
        simp only [pj] at h
        rw [List.cons_append]
        simp only [pj]
        split at h
        next hc1 =>
          rw [if_pos hc1]
          split at h
          next x r2 hsw =>
            have hne : skipWs rest ≠ [] := by rw [hsw]; simp
            have hG : skipWs (rest ++ B) = '}' :: (r2 ++ B) := by
              rw [skipWs_append_of_ne_nil hne, hsw]; rfl
            simp only [hG]
            simp only [Option.some.injEq, Prod.mk.injEq] at h
            rw [← h.1, ← h.2]
          next x hno =>
            have hne : skipWs rest ≠ [] := by
              intro h0
              rw [h0, pj_members_nil f] at h
              exact absurd h (by simp)
            have hG : skipWs (rest ++ B) = skipWs rest ++ B :=
              skipWs_append_of_ne_nil hne B
            rcases hsr : skipWs rest with _ | ⟨d, t⟩
            · exact absurd hsr hne
            · have hd : ¬d = '}' := by
                intro h0
                exact hno t (by rw [hsr, h0])
              rw [hG, hsr]
              simp only [List.cons_append]
              split
              next r2b heqb =>
                obtain ⟨hd2, _⟩ := by exact List.cons.inj heqb
                exact absurd hd2 hd
              next sb hnob =>
                have := ih .members (skipWs rest) v r B h (fun hm => nomatch hm)
                rw [hsr, List.cons_append] at this
                exact this
        next hnc1 =>
          rw [if_neg hnc1]
          split at h
          next hc2 =>
            rw [if_pos hc2]
            split at h
            next x r2 hsw =>
              have hne : skipWs rest ≠ [] := by rw [hsw]; simp
              have hG : skipWs (rest ++ B) = ']' :: (r2 ++ B) := by
                rw [skipWs_append_of_ne_nil hne, hsw]; rfl
              simp only [hG]
              simp only [Option.some.injEq, Prod.mk.injEq] at h
              rw [← h.1, ← h.2]
            next x hno =>
              have hne : skipWs rest ≠ [] := by
                intro h0
                rw [h0, pj_elems_nil f] at h
                exact absurd h (by simp)
              have hG : skipWs (rest ++ B) = skipWs rest ++ B :=
                skipWs_append_of_ne_nil hne B
              rcases hsr : skipWs rest with _ | ⟨d, t⟩
              · exact absurd hsr hne
              · have hd : ¬d = ']' := by
                  intro h0
                  exact hno t (by rw [hsr, h0])
                rw [hG, hsr]
                simp only [List.cons_append]
                split
                next r2b heqb =>
                  obtain ⟨hd2, _⟩ := by exact List.cons.inj heqb
                  exact absurd hd2 hd
                next sb hnob =>
                  have := ih .elems (skipWs rest) v r B h (fun hm => nomatch hm)
                  rw [hsr, List.cons_append] at this
                  exact this
          next hnc2 =>
            rw [if_neg hnc2]
            split at h
            next hc3 =>
              rw [if_pos hc3]
              split at h
              next x s0 r0 hpsr =>
                simp only [psr_ext rest B s0 r0 hpsr]
                simp only [Option.some.injEq, Prod.mk.injEq] at h
                rw [← h.1, ← h.2]
              next x hno => simp at h
            next hnc3 =>
              rw [if_neg hnc3]
              split at h
              next hc =>
                rw [if_pos hc]
                split at h
                next hpref =>
                  have hp2 := (prefix_ext B hpref).1
                  rw [List.cons_append] at hp2
                  have hp3 := (prefix_ext B hpref).2
                  rw [List.cons_append] at hp3
                  rw [if_pos hp2]
                  simp only [Option.some.injEq, Prod.mk.injEq] at h
                  rw [show (4 : Nat) = (strL "true").length from rfl] at h ⊢
                  rw [hp3, ← h.2, h.1]
                next hnpref => simp at h
              next hnc =>
                rw [if_neg hnc]
                split at h
                next hc =>
                  rw [if_pos hc]
                  split at h
                  next hpref =>
                    have hp2 := (prefix_ext B hpref).1
                    rw [List.cons_append] at hp2
                    have hp3 := (prefix_ext B hpref).2
                    rw [List.cons_append] at hp3
                    rw [if_pos hp2]
                    simp only [Option.some.injEq, Prod.mk.injEq] at h
                    rw [show (5 : Nat) = (strL "false").length from rfl] at h ⊢
                    rw [hp3, ← h.2, h.1]
                  next hnpref => simp at h
                next hnc =>
                  rw [if_neg hnc]
                  split at h
                  next hc =>
                    rw [if_pos hc]
                    split at h
                    next hpref =>
                      have hp2 := (prefix_ext B hpref).1
                      rw [List.cons_append] at hp2
                      have hp3 := (prefix_ext B hpref).2
                      rw [List.cons_append] at hp3
                      rw [if_pos hp2]
                      simp only [Option.some.injEq, Prod.mk.injEq] at h
                      rw [show (4 : Nat) = (strL "null").length from rfl] at h ⊢
                      rw [hp3, ← h.2, h.1]
                    next hnpref => simp at h
                  next hnc =>
                    rw [if_neg hnc]
                    split at h
                    next hc =>
                      rw [if_pos hc]
                      split at h
                      next hpref =>
                        have hp2 := (prefix_ext B hpref).1
                        rw [List.cons_append] at hp2
                        have hp3 := (prefix_ext B hpref).2
                        rw [List.cons_append] at hp3
                        rw [if_pos hp2]
                        simp only [Option.some.injEq, Prod.mk.injEq] at h
                        rw [show (3 : Nat) = (strL "NaN").length from rfl] at h ⊢
                        rw [hp3, ← h.2, h.1]
                      next hnpref => simp at h
                    next hnc =>
                      rw [if_neg hnc]
                      split at h
                      next hc =>
                        rw [if_pos hc]
                        split at h
                        next hpref =>
                          have hp2 := (prefix_ext B hpref).1
                          rw [List.cons_append] at hp2
                          have hp3 := (prefix_ext B hpref).2
                          rw [List.cons_append] at hp3
                          rw [if_pos hp2]
                          simp only [Option.some.injEq, Prod.mk.injEq] at h
                          rw [show (8 : Nat) = (strL "Infinity").length from rfl] at h ⊢
                          rw [hp3, ← h.2, h.1]
                        next hnpref => simp at h
                      next hnc =>
                        rw [if_neg hnc]
                        split at h
                        next hcond =>
                          simp only [Bool.and_eq_true, decide_eq_true_eq] at hcond
                          have hp2 := (prefix_ext B hcond.2).1

                          rw [List.cons_append] at hp2

                          have hp3 := (prefix_ext B hcond.2).2

                          rw [List.cons_append] at hp3

                          rw [if_pos (by

                            simp only [Bool.and_eq_true, decide_eq_true_eq]

                            exact ⟨hcond.1, hp2⟩)]

                          simp only [Option.some.injEq, Prod.mk.injEq] at h

                          rw [show (9 : Nat) = (strL "-Infinity").length from rfl] at h ⊢

                          rw [hp3, ← h.2, h.1]
                        next hcond =>
                          have hcond2 : ¬(decide (c = '-') && (strL "-Infinity").isPrefixOf ((c :: rest) ++ B)) = true := by
                            intro hcc
                            simp only [Bool.and_eq_true, decide_eq_true_eq] at hcc
                            obtain ⟨hcm, hpref⟩ := hcc
                            obtain ⟨hv, hveq, hreq⟩ := pn_shape h
                            subst hcm
                            rw [show strL "-Infinity" = '-' :: strL "Infinity" from rfl] at hpref
                            rw [List.cons_append] at hpref
                            simp only [List.isPrefixOf, Bool.and_eq_true, beq_iff_eq] at hpref
                            have hlex : ('-' :: rest).takeWhile isNumChar =
                                '-' :: rest.takeWhile isNumChar := by
                              rw [List.takeWhile_cons, if_pos (by decide)]
                            rw [hlex] at hv
                            simp only [validNum] at hv
                            obtain ⟨d, t, hdt, hdig⟩ := validIntRest_head hv
                            obtain ⟨t2, ht2, hpd⟩ := takeWhile_head2 hdt
                            rw [ht2, List.cons_append] at hpref
                            simp only [List.isPrefixOf, Bool.and_eq_true, beq_iff_eq] at hpref
                            rw [← hpref.2.1] at hdig

                            exact absurd hdig (by decide)
                          rw [if_neg (by simpa using hcond2)]
                          exact pn_ext h (hnum rfl)
    | .elems =>
      simp only [pj] at h ⊢
      split at h
      next hval => simp at h
      next x v1 r1 hval =>
        split at h
        next x2 r3 hsw =>
          have hr1ne : r1 ≠ [] := by
            intro h0; rw [h0] at hsw; simp [skipWs] at hsw
          have hval2 := ih .value cs v1 r1 B hval
            (fun _ h0 => absurd h0 hr1ne)
          rw [hval2]
          have hne : skipWs r1 ≠ [] := by rw [hsw]; simp
          have hG : skipWs (r1 ++ B) = ']' :: (r3 ++ B) := by
            rw [skipWs_append_of_ne_nil hne, hsw]; rfl
          simp only [hG]
          simp only [Option.some.injEq, Prod.mk.injEq] at h
          rw [← h.1, ← h.2]
        next x2 r3 hsw =>
          split at h
          next x3 vs r4 helems =>
            have hr1ne : r1 ≠ [] := by
              intro h0; rw [h0] at hsw; simp [skipWs] at hsw
            have hval2 := ih .value cs v1 r1 B hval
              (fun _ h0 => absurd h0 hr1ne)
            rw [hval2]
            have hne : skipWs r1 ≠ [] := by rw [hsw]; simp
            have hG : skipWs (r1 ++ B) = ',' :: (r3 ++ B) := by
              rw [skipWs_append_of_ne_nil hne, hsw]; rfl
            simp only [hG]
            have hr3ne : skipWs r3 ≠ [] := by
              intro h0
              rw [h0, pj_elems_nil f] at helems
              exact absurd helems (by simp)
            have helems2 := ih .elems (skipWs r3) (.arr vs) r4 B helems
              (fun hm => nomatch hm)
            have hG3 : skipWs (r3 ++ B) = skipWs r3 ++ B :=
              skipWs_append_of_ne_nil hr3ne B
            rw [hG3, helems2]
            simp only [Option.some.injEq, Prod.mk.injEq] at h
            rw [← h.1, ← h.2]
          next hother => simp at h
        next x2 hno1 hno2 => simp at h
    | .members =>
      match cs with
      | [] => simp [pj] at h
      | c :: s0 =>
        simp only [pj] at h
        rw [List.cons_append]
        simp only [pj]
        split at h
        next cc hkey =>
          obtain ⟨hc, hs0⟩ := by exact List.cons.inj hkey
          subst hc
          subst hs0
          split at h
          next hpsr => simp at h
          next x key r1 hpsr =>
            simp only [psr_ext s0 B key r1 hpsr]
            split at h
            next x2 r2 hcolon =>
              have hne1 : skipWs r1 ≠ [] := by rw [hcolon]; simp
              have hG1 : skipWs (r1 ++ B) = ':' :: (r2 ++ B) := by
                rw [skipWs_append_of_ne_nil hne1, hcolon]; rfl
              simp only [hG1]
              split at h
              next hval => simp at h
              next x3 v1 r3 hval =>
                have hr2ne : skipWs r2 ≠ [] := by
                  intro h0
                  rw [h0, pj_value_nil f] at hval
                  exact absurd hval (by simp)
                have hG2 : skipWs (r2 ++ B) = skipWs r2 ++ B :=
                  skipWs_append_of_ne_nil hr2ne B
                split at h
                next x4 r4 hbrace =>
                  have hr3ne : r3 ≠ [] := by
                    intro h0; rw [h0] at hbrace; simp [skipWs] at hbrace
                  have hval2 := ih .value (skipWs r2) v1 r3 B hval
                    (fun _ h0 => absurd h0 hr3ne)
                  rw [hG2, hval2]
                  have hne3 : skipWs r3 ≠ [] := by rw [hbrace]; simp
                  have hG3 : skipWs (r3 ++ B) = '}' :: (r4 ++ B) := by
                    rw [skipWs_append_of_ne_nil hne3, hbrace]; rfl
                  simp only [hG3]
                  simp only [Option.some.injEq, Prod.mk.injEq] at h
                  rw [← h.1, ← h.2]
                next x4 r4 hcomma =>
                  split at h
                  next x5 kvs r5 hmem =>
                    have hr3ne : r3 ≠ [] := by
                      intro h0; rw [h0] at hcomma; simp [skipWs] at hcomma
                    have hval2 := ih .value (skipWs r2) v1 r3 B hval
                      (fun _ h0 => absurd h0 hr3ne)
                    rw [hG2, hval2]
                    have hne3 : skipWs r3 ≠ [] := by rw [hcomma]; simp
                    have hG3 : skipWs (r3 ++ B) = ',' :: (r4 ++ B) := by
                      rw [skipWs_append_of_ne_nil hne3, hcomma]; rfl
                    simp only [hG3]
                    have hr4ne : skipWs r4 ≠ [] := by
                      intro h0
                      rw [h0, pj_members_nil f] at hmem
                      exact absurd hmem (by simp)
                    have hmem2 := ih .members (skipWs r4) (.obj kvs) r5 B hmem
                      (fun hm => nomatch hm)
                    have hG4 : skipWs (r4 ++ B) = skipWs r4 ++ B :=
                      skipWs_append_of_ne_nil hr4ne B
                    rw [hG4, hmem2]
                    simp only [Option.some.injEq, Prod.mk.injEq] at h
                    rw [← h.1, ← h.2]
                  next hother => simp at h
                next x4 hno1 hno2 => simp at h
            next x2 hno => simp at h
        next hnkey => simp at h

theorem skipWs_append_ws_nil {A tail : List Char} (hA : skipWs A = [])
    (htail : ∀ c ∈ tail, isJsonWs c = true) : skipWs (A ++ tail) = [] := by
  rw [skipWs, dropWhile_append_all (List.dropWhile_eq_nil_iff.mp hA)]
  exact List.dropWhile_eq_nil_iff.mpr htail

theorem skipWs_append_cons {A tail r : List Char} {ch : Char}
    (hne : skipWs A ≠ []) (h : skipWs A ++ tail = ch :: r) :
    ∃ t2, skipWs A = ch :: t2 ∧ r = t2 ++ tail := by
  rcases hsA : skipWs A with _ | ⟨d, t2⟩
  · exact absurd hsA hne
  · rw [hsA, List.cons_append] at h
    obtain ⟨h1, h2⟩ := by exact List.cons.inj h
    exact ⟨t2, by rw [h1], h2.symm⟩

theorem pj_value_ws_none {w : Char} {t : List Char} (f : Nat)
    (hw : isJsonWs w = true) : pj f .value (w :: t) = none := by
  cases f with
  | zero => rfl
  | succ f =>
    simp only [isJsonWs, Bool.or_eq_true, decide_eq_true_eq] at hw
    rcases hw with ((h | h) | h) | h <;> subst h <;>
      simp [pj, parseNumber, validNum, validIntRest, isNumChar,
        List.takeWhile_cons, List.isPrefixOf, strL]

set_option maxHeartbeats 3200000 in
/-- Removing an all-whitespace suffix from the input of a successful scan
keeps it successful, as long as the suffix is contained in the unconsumed
rest. -/
theorem pj_trunc : ∀ f m A tail v r, (∀ c ∈ tail, isJsonWs c = true) →
    pj f m (A ++ tail) = some (v, r) → tail.length ≤ r.length →
    ∃ r2, r = r2 ++ tail ∧ pj f m A = some (v, r2) := by
  intro f
  induction f with
  | zero => intro m A tail v r htail h hlen; simp [pj] at h
  | succ f ih =>
    intro m A tail v r htail h hlen
    rcases tail with _ | ⟨w0, t0⟩
    · rw [List.append_nil] at h
      exact ⟨r, by simp, h⟩
    generalize htl : w0 :: t0 = tail at *
    have htailne : tail ≠ [] := by rw [← htl]; simp
    match m with
    | .value =>
      match A with
      | [] =>
        rw [List.nil_append] at h
        rcases tail with _ | ⟨w, t⟩
        · exact absurd rfl htailne
        · rw [pj_value_ws_none (f + 1) (htail w (by simp))] at h
          exact absurd h (by simp)
      | c :: restA =>
        rw [List.cons_append] at h
        simp only [pj] at h ⊢
        split at h
        next hc1 =>
          rw [if_pos hc1]
          split at h
          next x r2 hsw =>
            have hne : skipWs restA ≠ [] := by
              intro h0
              rw [skipWs_append_ws_nil h0 htail] at hsw
              simp at hsw
            rw [skipWs_append_of_ne_nil hne] at hsw
            obtain ⟨t2, hsA, hr2⟩ := skipWs_append_cons hne hsw
            simp only [hsA]
            simp only [Option.some.injEq, Prod.mk.injEq] at h
            exact ⟨t2, by rw [← h.2, hr2], by rw [← h.1]⟩
          next x hno =>
            have hne : skipWs restA ≠ [] := by
              intro h0
              rw [skipWs_append_ws_nil h0 htail, pj_members_nil f] at h
              exact absurd h (by simp)
            rw [skipWs_append_of_ne_nil hne] at h
            obtain ⟨r2, hr2, hA⟩ := ih .members (skipWs restA) tail v r htail h hlen
            refine ⟨r2, hr2, ?_⟩
            rcases hsA : skipWs restA with _ | ⟨d, t2⟩
            · exact absurd hsA hne
            · have hd : ¬d = '}' := by
                intro h0
                refine hno (t2 ++ tail) ?_
                rw [skipWs_append_of_ne_nil hne, hsA, h0]
                rfl
              rw [hsA] at hA
              split
              next r2b heqb =>
                obtain ⟨hd2, _⟩ := by exact List.cons.inj heqb
                exact absurd hd2 hd
              next sb hnob => exact hA
        next hnc1 =>
          rw [if_neg hnc1]
          split at h
          next hc2 =>
            rw [if_pos hc2]
            split at h
            next x r2 hsw =>
              have hne : skipWs restA ≠ [] := by
                intro h0
                rw [skipWs_append_ws_nil h0 htail] at hsw
                simp at hsw
              rw [skipWs_append_of_ne_nil hne] at hsw
              obtain ⟨t2, hsA, hr2⟩ := skipWs_append_cons hne hsw
              simp only [hsA]
              simp only [Option.some.injEq, Prod.mk.injEq] at h
              exact ⟨t2, by rw [← h.2, hr2], by rw [← h.1]⟩
            next x hno =>
              have hne : skipWs restA ≠ [] := by
                intro h0
                rw [skipWs_append_ws_nil h0 htail, pj_elems_nil f] at h
                exact absurd h (by simp)
              rw [skipWs_append_of_ne_nil hne] at h
              obtain ⟨r2, hr2, hA⟩ := ih .elems (skipWs restA) tail v r htail h hlen
              refine ⟨r2, hr2, ?_⟩
              rcases hsA : skipWs restA with _ | ⟨d, t2⟩
              · exact absurd hsA hne
              · have hd : ¬d = ']' := by
                  intro h0
                  refine hno (t2 ++ tail) ?_
                  rw [skipWs_append_of_ne_nil hne, hsA, h0]
                  rfl
                rw [hsA] at hA
                split
                next r2b heqb =>
                  obtain ⟨hd2, _⟩ := by exact List.cons.inj heqb
                  exact absurd hd2 hd
                next sb hnob => exact hA
          next hnc2 =>
            rw [if_neg hnc2]
            split at h
            next hc3 =>
              rw [if_pos hc3]
              split at h
              next x s0 r0 hpsr =>
                simp only [Option.some.injEq, Prod.mk.injEq] at h
                obtain ⟨r2, hr2, hA⟩ := psr_trunc restA tail s0 r0 htail hpsr
                  (by rw [h.2]; exact hlen)
                rw [hA]
                exact ⟨r2, by rw [← h.2, hr2], by rw [← h.1]⟩
              next x hno => simp at h
            next hnc3 =>
              rw [if_neg hnc3]
              split at h
              next hc =>
                rw [if_pos hc]
                split at h
                next hpref =>
                  obtain ⟨ht1, ht2⟩ := prefix_trunc _ (by decide) (c :: restA) htail hpref
                  rw [if_pos ht1]
                  simp only [Option.some.injEq, Prod.mk.injEq] at h
                  rw [show (4 : Nat) = (strL "true").length from rfl] at h
                  rw [List.cons_append] at ht2
                  rw [ht2] at h
                  exact ⟨_, h.2.symm, by rw [← h.1,
                    show (4 : Nat) = (strL "true").length from rfl]⟩
                next hnpref => simp at h
              next hnc =>
                rw [if_neg hnc]
                split at h
                next hc =>
                  rw [if_pos hc]
                  split at h
                  next hpref =>
                    obtain ⟨ht1, ht2⟩ := prefix_trunc _ (by decide) (c :: restA) htail hpref
                    rw [if_pos ht1]
                    simp only [Option.some.injEq, Prod.mk.injEq] at h
                    rw [show (5 : Nat) = (strL "false").length from rfl] at h
                    rw [List.cons_append] at ht2
                    rw [ht2] at h
                    exact ⟨_, h.2.symm, by rw [← h.1,
                      show (5 : Nat) = (strL "false").length from rfl]⟩
                  next hnpref => simp at h
                next hnc =>
                  rw [if_neg hnc]
                  split at h
                  next hc =>
                    rw [if_pos hc]
                    split at h
                    next hpref =>
                      obtain ⟨ht1, ht2⟩ := prefix_trunc _ (by decide) (c :: restA) htail hpref
                      rw [if_pos ht1]
                      simp only [Option.some.injEq, Prod.mk.injEq] at h
                      rw [show (4 : Nat) = (strL "null").length from rfl] at h
                      rw [List.cons_append] at ht2
                      rw [ht2] at h
                      exact ⟨_, h.2.symm, by rw [← h.1,
                        show (4 : Nat) = (strL "null").length from rfl]⟩
                    next hnpref => simp at h
                  next hnc =>
                    rw [if_neg hnc]
                    split at h
                    next hc =>
                      rw [if_pos hc]
                      split at h
                      next hpref =>
                        obtain ⟨ht1, ht2⟩ := prefix_trunc _ (by decide) (c :: restA) htail hpref
                        rw [if_pos ht1]
                        simp only [Option.some.injEq, Prod.mk.injEq] at h
                        rw [show (3 : Nat) = (strL "NaN").length from rfl] at h
                        rw [List.cons_append] at ht2
                        rw [ht2] at h
                        exact ⟨_, h.2.symm, by rw [← h.1,
                          show (3 : Nat) = (strL "NaN").length from rfl]⟩
                      next hnpref => simp at h
                    next hnc =>
                      rw [if_neg hnc]
                      split at h
                      next hc =>
                        rw [if_pos hc]
                        split at h
                        next hpref =>
                          obtain ⟨ht1, ht2⟩ := prefix_trunc _ (by decide) (c :: restA) htail hpref
                          rw [if_pos ht1]
                          simp only [Option.some.injEq, Prod.mk.injEq] at h
                          rw [show (8 : Nat) = (strL "Infinity").length from rfl] at h
                          rw [List.cons_append] at ht2
                          rw [ht2] at h
                          exact ⟨_, h.2.symm, by rw [← h.1,
                            show (8 : Nat) = (strL "Infinity").length from rfl]⟩
                        next hnpref => simp at h
                      next hnc =>
                        rw [if_neg hnc]
                        split at h
                        next hcond =>
                          simp only [Bool.and_eq_true, decide_eq_true_eq] at hcond
                          obtain ⟨ht1, ht2⟩ := prefix_trunc _ (by decide) (c :: restA) htail hcond.2
                          rw [if_pos (by
                            simp only [Bool.and_eq_true, decide_eq_true_eq]
                            exact ⟨hcond.1, ht1⟩)]
                          simp only [Option.some.injEq, Prod.mk.injEq] at h
                          rw [show (9 : Nat) = (strL "-Infinity").length from rfl] at h
                          rw [List.cons_append] at ht2
                          rw [ht2] at h
                          exact ⟨_, h.2.symm, by rw [← h.1,
                            show (9 : Nat) = (strL "-Infinity").length from rfl]⟩
                        next hcond =>
                          rw [if_neg (by
                            intro hcc
                            simp only [Bool.and_eq_true, decide_eq_true_eq] at hcc
                            refine hcond (by
                              simp only [Bool.and_eq_true, decide_eq_true_eq]
                              refine ⟨hcc.1, ?_⟩
                              exact (prefix_ext tail hcc.2).1))]
                          obtain ⟨r2, hr2, hA⟩ := pn_trunc htail
                            (show parseNumber ((c :: restA) ++ tail) = some (v, r) from h)
                          exact ⟨r2, hr2, hA⟩
    | .elems =>
      simp only [pj] at h ⊢
      split at h
      next hval => simp at h
      next x v1 r1 hval =>
        split at h
        next x2 r3 hsw =>
          simp only [Option.some.injEq, Prod.mk.injEq] at h
          have hlen1 : tail.length ≤ r1.length := by
            have h1 : (skipWs r1).length ≤ r1.length := length_dropWhile_le _ _
            rw [hsw] at h1
            simp only [List.length_cons] at h1
            rw [← h.2] at hlen
            omega
          obtain ⟨r1b, hr1b, hvalA⟩ := ih .value A tail v1 r1 htail hval hlen1
          simp only [hvalA]
          rw [hr1b] at hsw
          have hne : skipWs r1b ≠ [] := by
            intro h0
            rw [skipWs_append_ws_nil h0 htail] at hsw
            simp at hsw
          rw [skipWs_append_of_ne_nil hne] at hsw
          obtain ⟨t2, hsA, hr3⟩ := skipWs_append_cons hne hsw
          simp only [hsA]
          exact ⟨t2, by rw [← h.2, hr3], by rw [← h.1]⟩
        next x2 r3 hsw =>
          split at h
          next x3 vs r4 helems =>
            simp only [Option.some.injEq, Prod.mk.injEq] at h
            have hlen4 : tail.length ≤ r4.length := by rw [← h.2] at hlen; exact hlen
            have hlen3 : tail.length ≤ r3.length := by
              obtain ⟨pre, hpre, _⟩ := pj_consume _ _ _ _ _ helems
              have h2 : (skipWs r3).length ≤ r3.length := length_dropWhile_le _ _
              have h3 := congrArg List.length hpre
              simp only [List.length_append] at h3
              omega
            have hlen1 : tail.length ≤ r1.length := by
              have h1 : (skipWs r1).length ≤ r1.length := length_dropWhile_le _ _
              rw [hsw] at h1
              simp only [List.length_cons] at h1
              omega
            obtain ⟨r1b, hr1b, hvalA⟩ := ih .value A tail v1 r1 htail hval hlen1
            simp only [hvalA]
            rw [hr1b] at hsw
            have hne : skipWs r1b ≠ [] := by
              intro h0
              rw [skipWs_append_ws_nil h0 htail] at hsw
              simp at hsw
            rw [skipWs_append_of_ne_nil hne] at hsw
            obtain ⟨t2, hsA, hr3⟩ := skipWs_append_cons hne hsw
            simp only [hsA]
            rw [hr3] at helems
            have hne2 : skipWs t2 ≠ [] := by
              intro h0
              rw [skipWs_append_ws_nil h0 htail, pj_elems_nil f] at helems
              exact absurd helems (by simp)
            rw [skipWs_append_of_ne_nil hne2] at helems
            obtain ⟨r4b, hr4b, helemsA⟩ := ih .elems (skipWs t2) tail
              (.arr vs) r4 htail helems hlen4
            simp only [helemsA]
            exact ⟨r4b, by rw [← h.2, hr4b], by rw [← h.1]⟩
          next hother => simp at h
        next x2 hno1 hno2 => simp at h
    | .members =>
      match A with
      | [] =>
        rw [List.nil_append] at h
        rcases tail with _ | ⟨w, t⟩
        · exact absurd rfl htailne
        · have hw := htail w (by simp)
          simp only [pj] at h
          split at h
          next cc hkey =>
            obtain ⟨h1, _⟩ := by exact List.cons.inj hkey
            exact absurd h1 (ws_char_ne hw).1
          next hnkey => simp at h
      | c :: s0A =>
        rw [List.cons_append] at h
        simp only [pj] at h ⊢
        split at h
        next cc hkey =>
          obtain ⟨hc, hs0⟩ := by exact List.cons.inj hkey
          subst hc
          rw [← hs0] at h
          split at h
          next hpsr => simp at h
          next x key r1 hpsr =>
            split at h
            next x2 r2 hcolon =>
              split at h
              next hval => simp at h
              next x3 v1 r3 hval =>
                split at h
                next x4 r4 hbrace =>
                  simp only [Option.some.injEq, Prod.mk.injEq] at h
                  have hlen4 : tail.length ≤ r4.length := by
                    rw [← h.2] at hlen; exact hlen
                  have hlen3 : tail.length ≤ r3.length := by
                    have h1 : (skipWs r3).length ≤ r3.length := length_dropWhile_le _ _
                    rw [hbrace] at h1
                    simp only [List.length_cons] at h1
                    omega
                  have hlen2 : tail.length ≤ r2.length := by
                    obtain ⟨pre, hpre, _⟩ := pj_consume _ _ _ _ _ hval
                    have h2 : (skipWs r2).length ≤ r2.length := length_dropWhile_le _ _
                    have h3 := congrArg List.length hpre
                    simp only [List.length_append] at h3
                    omega
                  have hlen1 : tail.length ≤ r1.length := by
                    have h1 : (skipWs r1).length ≤ r1.length := length_dropWhile_le _ _
                    rw [hcolon] at h1
                    simp only [List.length_cons] at h1
                    omega
                  obtain ⟨r1b, hr1b, hpsrA⟩ := psr_trunc s0A tail key r1 htail hpsr hlen1
                  simp only [hpsrA]
                  rw [hr1b] at hcolon
                  have hne1 : skipWs r1b ≠ [] := by
                    intro h0
                    rw [skipWs_append_ws_nil h0 htail] at hcolon
                    simp at hcolon
                  rw [skipWs_append_of_ne_nil hne1] at hcolon
                  obtain ⟨t2, hsA1, hr2⟩ := skipWs_append_cons hne1 hcolon
                  simp only [hsA1]
                  rw [hr2] at hval
                  have hne2 : skipWs t2 ≠ [] := by
                    intro h0
                    rw [skipWs_append_ws_nil h0 htail, pj_value_nil f] at hval
                    exact absurd hval (by simp)
                  rw [skipWs_append_of_ne_nil hne2] at hval
                  obtain ⟨r3b, hr3b, hvalA⟩ := ih .value (skipWs t2) tail v1 r3 htail hval hlen3
                  simp only [hvalA]
                  rw [hr3b] at hbrace
                  have hne3 : skipWs r3b ≠ [] := by
                    intro h0
                    rw [skipWs_append_ws_nil h0 htail] at hbrace
                    simp at hbrace
                  rw [skipWs_append_of_ne_nil hne3] at hbrace
                  obtain ⟨t4, hsA3, hr4⟩ := skipWs_append_cons hne3 hbrace
                  simp only [hsA3]
                  exact ⟨t4, by rw [← h.2, hr4], by rw [← h.1]⟩
                next x4 r4 hcomma =>
                  split at h
                  next x5 kvs r5 hmem =>
                    simp only [Option.some.injEq, Prod.mk.injEq] at h
                    have hlen5 : tail.length ≤ r5.length := by
                      rw [← h.2] at hlen; exact hlen
                    have hlen4 : tail.length ≤ r4.length := by
                      obtain ⟨pre, hpre, _⟩ := pj_consume _ _ _ _ _ hmem
                      have h2 : (skipWs r4).length ≤ r4.length := length_dropWhile_le _ _
                      have h3 := congrArg List.length hpre
                      simp only [List.length_append] at h3
                      omega
                    have hlen3 : tail.length ≤ r3.length := by
                      have h1 : (skipWs r3).length ≤ r3.length := length_dropWhile_le _ _
                      rw [hcomma] at h1
                      simp only [List.length_cons] at h1
                      omega
                    have hlen2 : tail.length ≤ r2.length := by
                      obtain ⟨pre, hpre, _⟩ := pj_consume _ _ _ _ _ hval
                      have h2 : (skipWs r2).length ≤ r2.length := length_dropWhile_le _ _
                      have h3 := congrArg List.length hpre
                      simp only [List.length_append] at h3
                      omega
                    have hlen1 : tail.length ≤ r1.length := by
                      have h1 : (skipWs r1).length ≤ r1.length := length_dropWhile_le _ _
                      rw [hcolon] at h1
                      simp only [List.length_cons] at h1
                      omega
                    obtain ⟨r1b, hr1b, hpsrA⟩ := psr_trunc s0A tail key r1 htail hpsr hlen1
                    simp only [hpsrA]
                    rw [hr1b] at hcolon
                    have hne1 : skipWs r1b ≠ [] := by
                      intro h0
                      rw [skipWs_append_ws_nil h0 htail] at hcolon
                      simp at hcolon
                    rw [skipWs_append_of_ne_nil hne1] at hcolon
                    obtain ⟨t2, hsA1, hr2⟩ := skipWs_append_cons hne1 hcolon
                    simp only [hsA1]
                    rw [hr2] at hval
                    have hne2 : skipWs t2 ≠ [] := by
                      intro h0
                      rw [skipWs_append_ws_nil h0 htail, pj_value_nil f] at hval
                      exact absurd hval (by simp)
                    rw [skipWs_append_of_ne_nil hne2] at hval
                    obtain ⟨r3b, hr3b, hvalA⟩ := ih .value (skipWs t2) tail v1 r3 htail hval hlen3
                    simp only [hvalA]
                    rw [hr3b] at hcomma
                    have hne3 : skipWs r3b ≠ [] := by
                      intro h0
                      rw [skipWs_append_ws_nil h0 htail] at hcomma
                      simp at hcomma
                    rw [skipWs_append_of_ne_nil hne3] at hcomma
                    obtain ⟨t4, hsA3, hr4⟩ := skipWs_append_cons hne3 hcomma
                    simp only [hsA3]
                    rw [hr4] at hmem
                    have hne4 : skipWs t4 ≠ [] := by
                      intro h0
                      rw [skipWs_append_ws_nil h0 htail, pj_members_nil f] at hmem
                      exact absurd hmem (by simp)
                    rw [skipWs_append_of_ne_nil hne4] at hmem
                    obtain ⟨r5b, hr5b, hmemA⟩ := ih .members (skipWs t4) tail
                      (.obj kvs) r5 htail hmem hlen5
                    simp only [hmemA]
                    exact ⟨r5b, by rw [← h.2, hr5b], by rw [← h.1]⟩
                  next hother => simp at h
                next x4 hno1 hno2 => simp at h
            next x2 hno => simp at h
        next hnkey =>
          rcases s0A with _ | ⟨c2, s2⟩
          · rcases tail with _ | ⟨w, t⟩
            · exact absurd rfl htailne
            · simp at h
          · simp at h

/-- A successful value scan starts with a non-whitespace character. -/
theorem pj_value_head_solid : ∀ f cs p, pj f .value cs = some p →
    ∃ c t2, cs = c :: t2 ∧ isJsonWs c = false ∧ pyIsSpace c = false := by
  intro f cs p h
  match f, cs with
  | 0, _ => simp [pj] at h
  | f + 1, [] => simp [pj] at h
  | f + 1, c :: rest =>
    simp only [pj] at h
    split at h
    next hc =>
      subst hc
      exact ⟨'{', rest, rfl, by decide, by decide⟩
    next hnc0 =>
      split at h
      next hc =>
        subst hc
        exact ⟨'[', rest, rfl, by decide, by decide⟩
      next hnc0 =>
        split at h
        next hc =>
          subst hc
          exact ⟨'"', rest, rfl, by decide, by decide⟩
        next hnc0 =>
          split at h
          next hc =>
            subst hc
            exact ⟨'t', rest, rfl, by decide, by decide⟩
          next hnc0 =>
            split at h
            next hc =>
              subst hc
              exact ⟨'f', rest, rfl, by decide, by decide⟩
            next hnc0 =>
              split at h
              next hc =>
                subst hc
                exact ⟨'n', rest, rfl, by decide, by decide⟩
              next hnc0 =>
                split at h
                next hc =>
                  subst hc
                  exact ⟨'N', rest, rfl, by decide, by decide⟩
                next hnc0 =>
                  split at h
                  next hc =>
                    subst hc
                    exact ⟨'I', rest, rfl, by decide, by decide⟩
                  next hnc0 =>
                    split at h
                    next hcond =>
                      simp only [Bool.and_eq_true, decide_eq_true_eq] at hcond
                      obtain ⟨hcm, _⟩ := hcond
                      subst hcm
                      exact ⟨'-', rest, rfl, by decide, by decide⟩
                    next hcond =>
                      obtain ⟨hv, hveq, hreq⟩ := pn_shape h
                      have hlex := validNum_ne_nil hv
                      have hnc : isNumChar c = true := by
                        rcases hcc : isNumChar c with _ | _
                        · rw [List.takeWhile_cons, if_neg (by simp [hcc])] at hlex
                          exact absurd rfl hlex
                        · rfl
                      refine ⟨c, rest, rfl, ?_, isNumChar_not_space hnc⟩
                      rcases hjw : isJsonWs c with _ | _
                      · rfl
                      · rw [ws_not_numChar hjw] at hnc
                        exact absurd hnc (by simp)

theorem dropRightWhile_append_solid {p : Char → Bool} {X Y : List Char}
    (hY : ∀ c ∈ Y, p c = true) {q : Char} (hq : X.getLast? = some q)
    (hpq : p q = false) : dropRightWhile p (X ++ Y) = X := by
  unfold dropRightWhile
  rw [List.reverse_append]
  rw [dropWhile_append_all (fun c hc => hY c (List.mem_reverse.mp hc))]
  have hx : X.reverse.head? = some q := by
    rw [List.head?_reverse]
    exact hq
  rcases hxr : X.reverse with _ | ⟨z, Z⟩
  · rw [hxr] at hx; simp at hx
  · rw [hxr] at hx
    simp only [List.head?_cons, Option.some.injEq] at hx
    rw [List.dropWhile_cons, if_neg (by rw [hx, hpq]; simp)]
    rw [← hxr, List.reverse_reverse]

/-- Stripping surrounding whitespace preserves a successful `json.loads`,
and the stripped text is nonempty. -/
theorem jsonLoads_strip_some {t : List Char} {v : Json}
    (h : jsonLoads t = some v) :
    jsonLoads (pyStrip t) = some v ∧ pyStrip t ≠ [] := by
  unfold jsonLoads at h
  rcases hp : pj (2 * t.length + 2) .value (skipWs t) with _ | ⟨v1, rr⟩
  · rw [hp] at h; simp at h
  · simp only [hp] at h
    by_cases hrr : skipWs rr = []
    · rw [if_pos hrr] at h
      simp only [Option.some.injEq] at h
      obtain ⟨rfl⟩ := h
      have hallws : ∀ c ∈ rr, isJsonWs c = true :=
        List.dropWhile_eq_nil_iff.mp hrr
      obtain ⟨pre, hpre, hsolid⟩ := pj_consume _ _ _ _ _ hp
      obtain ⟨r2, hr2, hpreparse⟩ := pj_trunc _ .value pre rr v rr hallws
        (by rw [← hpre]; exact hp) le_rfl
      have hr2nil : r2 = [] := by
        have := congrArg List.length hr2
        simp only [List.length_append] at this
        rcases r2 with _ | ⟨a, b⟩
        · rfl
        · simp at this
      rw [hr2nil] at hpreparse
      obtain ⟨hc, ht2, hcons, hjw, hps⟩ := pj_value_head_solid _ _ _ hp
      have hprehead : ∃ pre2, pre = hc :: pre2 := by
        rcases pre with _ | ⟨pc, pre2⟩
        · exact absurd rfl hsolid.ne_nil
        · rw [hcons] at hpre
          obtain ⟨h1, _⟩ := by exact List.cons.inj hpre
          exact ⟨pre2, by rw [h1]⟩
      obtain ⟨pre2, hpre2⟩ := hprehead
      obtain ⟨q, hqlast, hqns⟩ := hsolid
      have hstrip : pyStrip t = pre := by
        unfold pyStrip
        have ht : t = t.takeWhile isJsonWs ++ (pre ++ rr) := by
          conv_lhs => rw [skipWs_decomp t]
          rw [hpre]
        rw [ht]
        rw [List.dropWhile_append]
        rw [List.dropWhile_eq_nil_iff.mpr
          (fun c hcm => jsonWs_pyIsSpace (takeWhile_ws_all c hcm))]
        simp only [List.isEmpty_nil, if_true]
        have hdw : List.dropWhile pyIsSpace (pre ++ rr) = pre ++ rr := by
          rw [hpre2, List.cons_append, List.dropWhile_cons, if_neg (by rw [hps]; simp)]
        rw [hdw]
        exact dropRightWhile_append_solid
          (fun c hcm => jsonWs_pyIsSpace (hallws c hcm)) hqlast hqns
      refine ⟨?_, by rw [hstrip, hpre2]; simp⟩
      rw [hstrip]
      unfold jsonLoads
      have hskip : skipWs pre = pre := by
        rw [hpre2, skipWs, List.dropWhile_cons, if_neg (by rw [hjw]; simp)]
      rw [hskip]
      rw [pj_adequate _ _ _ _ _ hpreparse (2 * pre.length + 2)
        (by simp [pmRank])]
      simp [skipWs]
    · rw [if_neg hrr] at h
      exact absurd h (by simp)

/-! ## Whole-output parsing facts for parse_paginated_json -/

theorem ppj_whole_arr {t : List Char} {xs : List Json}
    (h : jsonLoads t = some (Json.arr xs)) :
    parse_paginated_json t = Except.ok xs := by
  obtain ⟨hs, hne⟩ := jsonLoads_strip_some h
  unfold parse_paginated_json
  simp only [if_neg hne, hs]

theorem ppj_whole_nonarr {t : List Char} {v : Json}
    (h : jsonLoads t = some v) (hv : ∀ xs, v ≠ Json.arr xs) :
    parse_paginated_json t = Except.ok [v] := by
  obtain ⟨hs, hne⟩ := jsonLoads_strip_some h
  unfold parse_paginated_json
  cases v with
  | arr xs => exact absurd rfl (hv xs)
  | null => simp only [if_neg hne, hs]
  | bool b => simp only [if_neg hne, hs]
  | num lex => simp only [if_neg hne, hs]
  | str s => simp only [if_neg hne, hs]
  | obj kvs => simp only [if_neg hne, hs]

theorem jsonLoads_nil : jsonLoads ([] : List Char) = none := rfl

theorem parse_chunks_error_of_bad : ∀ (chunks : List (List Char)),
    (∃ c ∈ chunks, pyStrip c ≠ [] ∧ jsonLoads (pyStrip c) = none) →
    ∃ e, parse_chunks chunks = Except.error e := by
  intro chunks h
  induction chunks with
  | nil =>
    obtain ⟨c, hc, _⟩ := h
    exact absurd hc (List.not_mem_nil c)
  | cons a rest ih =>
    obtain ⟨c, hc, hcn, hcb⟩ := h
    simp only [parse_chunks]
    rcases List.mem_cons.mp hc with rfl | hmem
    · exact ⟨pyStrip c, by simp only [if_neg hcn, hcb]⟩
    · obtain ⟨e, he⟩ := ih ⟨c, hmem, hcn, hcb⟩
      by_cases ha : pyStrip a = []
      · exact ⟨e, by rw [if_pos ha]; exact he⟩
      · rcases hja : jsonLoads (pyStrip a) with _ | v
        · exact ⟨pyStrip a, by simp only [if_neg ha, hja]⟩
        · refine ⟨e, ?_⟩
          simp only [if_neg ha, hja]
          cases v <;> rw [he] <;> rfl

/-- C1: for every well-formed single-page JSON array response text — one on
which `json.loads` succeeds with an array value — `parse_paginated_json`
returns exactly that array's elements, in order, nothing dropped or added. -/
theorem parse_paginated_single_array (out : List Char) (xs : List Json)
    (h : jsonLoads out = some (Json.arr xs)) :
    parse_paginated_json out = Except.ok xs :=
  ppj_whole_arr h

theorem parse_paginated_single_array_witness :
    jsonLoads (strL "[1, 2]") =
      some (Json.arr [Json.num (strL "1"), Json.num (strL "2")]) ∧
    parse_paginated_json (strL "[1, 2]") =
      Except.ok [Json.num (strL "1"), Json.num (strL "2")] :=
  ⟨rfl, parse_paginated_single_array _ _ rfl⟩

/-- C3: if the whole (stripped, nonempty) output does not parse and some
fragment of the line-split form is nonblank and malformed, then
`parse_paginated_json` fails with a parse error: the result is an `error`,
never a partial list of the fragments that did parse. -/
theorem parse_paginated_bad_fragment (out : List Char)
    (hne : pyStrip out ≠ [])
    (hwhole : jsonLoads (pyStrip out) = none)
    (hbad : ∃ c ∈ pySplitlines (replaceBB (pyStrip out)),
      pyStrip c ≠ [] ∧ jsonLoads (pyStrip c) = none) :
    ∃ e, parse_paginated_json out = Except.error e := by
  obtain ⟨e, he⟩ := parse_chunks_error_of_bad _ hbad
  refine ⟨e, ?_⟩
  unfold parse_paginated_json
  simp only [if_neg hne, hwhole]
  exact he

theorem parse_paginated_bad_fragment_witness :
    (pyStrip (strL "[1][oops]") ≠ [] ∧
      jsonLoads (pyStrip (strL "[1][oops]")) = none ∧
      ∃ c ∈ pySplitlines (replaceBB (pyStrip (strL "[1][oops]"))),
        pyStrip c ≠ [] ∧ jsonLoads (pyStrip c) = none) ∧
    ∃ e, parse_paginated_json (strL "[1][oops]") = Except.error e :=
  ⟨⟨by decide, rfl, ⟨strL "[oops]", by decide, by decide, rfl⟩⟩,
   parse_paginated_bad_fragment _ (by decide) rfl
     ⟨strL "[oops]", by decide, by decide, rfl⟩⟩

/-- C4: an object-valued response is treated as a one-element collection,
not an error: whole-output input parsing to a JSON object yields that object
wrapped in a singleton list, and an object-valued fragment in the chunk loop
contributes a single appended element. -/
theorem parse_paginated_object_wrapped (out chunk : List Char)
    (kvs kvs2 : List (List Char × Json)) (rest : List (List Char))
    (hw : jsonLoads out = some (Json.obj kvs))
    (hc : jsonLoads (pyStrip chunk) = some (Json.obj kvs2)) :
    parse_paginated_json out = Except.ok [Json.obj kvs] ∧
    parse_chunks (chunk :: rest) =
      (parse_chunks rest).map (fun tail => Json.obj kvs2 :: tail) := by
  constructor
  · exact ppj_whole_nonarr hw (fun xs hx => Json.noConfusion hx)
  · have hcne : pyStrip chunk ≠ [] := by
      intro h0
      rw [h0, jsonLoads_nil] at hc
      exact Option.noConfusion hc
    simp only [parse_chunks, if_neg hcne, hc]

theorem parse_paginated_object_wrapped_witness :
    (jsonLoads (strL "\x7b\"a\": 1\x7d") =
      some (Json.obj [(strL "a", Json.num (strL "1"))]) ∧
     jsonLoads (pyStrip (strL "\x7b\x7d")) = some (Json.obj [])) ∧
    (parse_paginated_json (strL "\x7b\"a\": 1\x7d") =
      Except.ok [Json.obj [(strL "a", Json.num (strL "1"))]] ∧
     parse_chunks [strL "\x7b\x7d"] =
      (parse_chunks []).map (fun tail => Json.obj [] :: tail)) :=
  ⟨⟨rfl, rfl⟩, parse_paginated_object_wrapped _ _ _ _ _ rfl rfl⟩

theorem mem_of_getLast?_eq {l : List Char} {a : Char}
    (h : l.getLast? = some a) : a ∈ l := by
  rcases l with _ | ⟨b, t⟩
  · simp at h
  · have h2 := List.getLast?_eq_getLast (b :: t) (by simp)
    rw [h2] at h
    simp only [Option.some.injEq] at h
    rw [← h]
    exact List.getLast_mem (by simp)

theorem replaceBB_cons_ne {c : Char} (hc : c ≠ ']') (l : List Char) :
    replaceBB (c :: l) = c :: replaceBB l := by
  rw [replaceBB.eq_def]
  split
  next rest heq =>
    obtain ⟨h1, _⟩ := List.cons.inj heq
    exact absurd h1 hc
  next d rest _ heq =>
    obtain ⟨h1, h2⟩ := List.cons.inj heq
    rw [h1, h2]
  next heq => exact List.noConfusion heq

theorem replaceBB_cons_rb {l : List Char} (hl : l.head? ≠ some '[') :
    replaceBB (']' :: l) = ']' :: replaceBB l := by
  rw [replaceBB.eq_def]
  split
  next rest heq =>
    obtain ⟨_, h2⟩ := List.cons.inj heq
    rw [h2] at hl
    simp at hl
  next d rest _ heq =>
    obtain ⟨h1, h2⟩ := List.cons.inj heq
    rw [h1, h2]
  next heq => exact List.noConfusion heq

theorem hasBB_cons_false {c : Char} {l : List Char}
    (h : hasBB (c :: l) = false) : hasBB l = false := by
  rw [hasBB.eq_def] at h
  split at h
  next heq => exact absurd h (by simp)
  next d rest _ heq =>
    obtain ⟨_, h2⟩ := List.cons.inj heq
    rw [h2]
    exact h
  next heq => exact List.noConfusion heq

theorem hasBB_shape {l : List Char} (h : hasBB l = false) :
    ∀ l2, l ≠ ']' :: '[' :: l2 := by
  intro l2 hl
  rw [hl] at h
  exact absurd h (by rw [hasBB]; simp)

theorem replaceBB_id : ∀ (l : List Char), hasBB l = false → replaceBB l = l := by
  intro l
  induction l with
  | nil => intro _; rfl
  | cons c rest ih =>
    intro h
    have hrest := hasBB_cons_false h
    by_cases hc : c = ']'
    · subst hc
      have hhd : rest.head? ≠ some '[' := by
        intro hh
        rcases rest with _ | ⟨d, rest2⟩
        · simp at hh
        · simp only [List.head?_cons, Option.some.injEq] at hh
          exact hasBB_shape h rest2 (by rw [hh])
      rw [replaceBB_cons_rb hhd, ih hrest]
    · rw [replaceBB_cons_ne hc, ih hrest]

theorem replaceBB_step : ∀ (A B : List Char), hasBB (A ++ [']']) = false →
    replaceBB (A ++ ']' :: '[' :: B) = A ++ ']' :: '\n' :: '[' :: replaceBB B := by
  intro A
  induction A with
  | nil => intro B _; rfl
  | cons c A' ih =>
    intro B h
    have hA' : hasBB (A' ++ [']']) = false := hasBB_cons_false h
    by_cases hc : c = ']'
    · subst hc
      have hhd : (A' ++ ']' :: '[' :: B).head? ≠ some '[' := by
        rcases A' with _ | ⟨d, A''⟩
        · simp
        · simp only [List.cons_append, List.head?_cons, Option.some.injEq]
          intro hd
          simp only [Option.some.injEq] at hd
          exact hasBB_shape h (A'' ++ [']']) (by rw [hd]; rfl)
      rw [List.cons_append, replaceBB_cons_rb hhd, ih B hA']
      exact (List.cons_append _ _ _).symm
    · rw [List.cons_append, replaceBB_cons_ne hc, ih B hA']
      exact (List.cons_append _ _ _).symm

theorem pySplitlines_cons (c : Char) (l : List Char) :
    pySplitlines (c :: l) = slGo [] (c :: l) := rfl

theorem slGo_break {c : Char} (hc : isPyLineBreak c = true) (hcr : c ≠ '\r')
    (cur R : List Char) : slGo cur (c :: R) = cur.reverse :: pySplitlines R := by
  rw [slGo.eq_def]
  split
  next heq => exact List.noConfusion heq
  next rest heq =>
    obtain ⟨h1, _⟩ := List.cons.inj heq
    exact absurd h1 hcr
  next d rest _ heq =>
    obtain ⟨h1, h2⟩ := List.cons.inj heq
    rw [← h1, ← h2, if_pos hc]
    rcases R with _ | ⟨e, R'⟩ <;> rfl

theorem slGo_solid {c : Char} (hc : isPyLineBreak c = false)
    (cur R : List Char) : slGo cur (c :: R) = slGo (c :: cur) R := by
  rw [slGo.eq_def]
  split
  next heq => exact List.noConfusion heq
  next rest heq =>
    obtain ⟨h1, _⟩ := List.cons.inj heq
    rw [h1] at hc
    exact absurd hc (by decide)
  next d rest _ heq =>
    obtain ⟨h1, h2⟩ := List.cons.inj heq
    rw [← h1, ← h2, if_neg (by rw [hc]; simp)]

theorem slGo_line : ∀ (t cur R : List Char),
    (∀ c ∈ t, isPyLineBreak c = false) →
    slGo cur (t ++ '\n' :: R) = (cur.reverse ++ t) :: pySplitlines R := by
  intro t
  induction t with
  | nil =>
    intro cur R _
    rw [List.nil_append, slGo_break (by decide) (by decide)]
    simp
  | cons c t' ih =>
    intro cur R h
    rw [List.cons_append, slGo_solid (h c (List.mem_cons_self c t'))]
    rw [ih (c :: cur) R (fun d hd => h d (List.mem_cons_of_mem c hd))]
    simp

theorem slGo_all : ∀ (t cur : List Char),
    (∀ c ∈ t, isPyLineBreak c = false) →
    slGo cur t = [cur.reverse ++ t] := by
  intro t
  induction t with
  | nil => intro cur _; simp [slGo]
  | cons c t' ih =>
    intro cur h
    rw [slGo_solid (h c (List.mem_cons_self c t'))]
    rw [ih (c :: cur) (fun d hd => h d (List.mem_cons_of_mem c hd))]
    simp

theorem pySplitlines_joinFrags : ∀ (ts : List (List Char)), ts ≠ [] →
    (∀ t ∈ ts, t ≠ [] ∧ ∀ c ∈ t, isPyLineBreak c = false) →
    pySplitlines (joinFrags ts) = ts := by
  intro ts
  induction ts with
  | nil => intro h _; exact absurd rfl h
  | cons t rest ih =>
    intro _ h
    obtain ⟨htne, htc⟩ := h t (List.mem_cons_self t rest)
    rcases rest with _ | ⟨u, rest'⟩
    · rcases htt : t with _ | ⟨c, t'⟩
      · exact absurd htt htne
      · rw [htt] at htc
        rw [show joinFrags [c :: t'] = c :: t' from rfl, pySplitlines_cons,
          slGo_all _ _ htc]
        rfl
    · rcases htt : t with _ | ⟨c, t'⟩
      · exact absurd htt htne
      · rw [htt] at htc
        rw [show joinFrags ((c :: t') :: u :: rest') =
          (c :: t') ++ '\n' :: joinFrags (u :: rest') from rfl]
        rw [List.cons_append, pySplitlines_cons, ← List.cons_append,
          slGo_line _ _ _ htc]
        rw [ih (by simp) (fun s hs => h s (List.mem_cons_of_mem t hs))]
        rfl

theorem pyStrip_frag (b : List Char) :
    pyStrip ('[' :: b ++ [']']) = '[' :: b ++ [']'] := by
  unfold pyStrip
  rw [List.cons_append, List.dropWhile_cons, if_neg (by decide), ← List.cons_append]
  have hlast : ('[' :: b ++ [']']).getLast? = some ']' :=
    List.getLast?_concat ('[' :: b)
  have h2 := dropRightWhile_append_solid
    (fun c (hc : c ∈ ([] : List Char)) => absurd hc (List.not_mem_nil c)) hlast
    (by decide : pyIsSpace ']' = false)
  rw [List.append_nil] at h2
  exact h2

theorem parse_chunks_ok : ∀ (L : List (List Char × List Json)),
    (∀ p ∈ L, (∃ b, p.1 = '[' :: b ++ [']']) ∧
      jsonLoads p.1 = some (Json.arr p.2)) →
    parse_chunks (L.map Prod.fst) =
      Except.ok (List.flatten (L.map Prod.snd)) := by
  intro L
  induction L with
  | nil => intro _; rfl
  | cons p L' ih =>
    intro h
    obtain ⟨⟨b, hb⟩, hj⟩ := h p (List.mem_cons_self p L')
    have hstrip : pyStrip p.1 = p.1 := by rw [hb]; exact pyStrip_frag b
    have hne : p.1 ≠ [] := by rw [hb]; simp
    simp only [List.map_cons, parse_chunks, hstrip, if_neg hne, hj]
    rw [ih (fun q hq => h q (List.mem_cons_of_mem p hq))]
    rfl

theorem jsonLoads_frag_exact {t b : List Char} {v : Json}
    (hsh : t = '[' :: b ++ [']']) (h : jsonLoads t = some v) :
    pj (2 * t.length + 2) .value t = some (v, []) := by
  have hskip : skipWs t = t := by
    rw [hsh]
    show skipWs ('[' :: (b ++ [']'])) = _
    unfold skipWs
    rw [List.dropWhile_cons, if_neg (by decide)]
    rfl
  unfold jsonLoads at h
  rw [hskip] at h
  rcases hp : pj (2 * t.length + 2) .value t with _ | ⟨v1, rr⟩
  · rw [hp] at h
    exact absurd h (by simp)
  · simp only [hp] at h
    by_cases hrr : skipWs rr = []
    · rw [if_pos hrr] at h
      simp only [Option.some.injEq] at h
      obtain ⟨rfl⟩ := h
      have hallws : ∀ c ∈ rr, isJsonWs c = true :=
        List.dropWhile_eq_nil_iff.mp hrr
      rcases rr with _ | ⟨d, rr'⟩
      · rfl
      · exfalso
        have hlast : t.getLast? = some ']' := by
          rw [hsh]
          exact List.getLast?_concat ('[' :: b)
        obtain ⟨pre, hpre, _⟩ := pj_consume _ _ _ _ _ hp
        rw [hpre, List.getLast?_append_of_ne_nil pre (by simp)] at hlast
        have hqm : ']' ∈ d :: rr' := mem_of_getLast?_eq hlast
        exact absurd (hallws ']' hqm) (by decide)
    · rw [if_neg hrr] at h
      exact absurd h (by simp)

theorem jsonLoads_concat_none {t b C : List Char} {v : Json}
    (hsh : t = '[' :: b ++ [']']) (h : jsonLoads t = some v) :
    jsonLoads (t ++ '[' :: C) = none := by
  have hp := jsonLoads_frag_exact hsh h
  have hext := pj_ext _ _ _ _ _ ('[' :: C) hp
    (fun _ _ => by show isNumChar '[' = false; decide)
  rw [List.nil_append] at hext
  have hadq := pj_adequate _ _ _ _ _ hext (2 * (t ++ '[' :: C).length + 2)
    (by simp [pmRank])
  unfold jsonLoads
  have hskip : skipWs (t ++ '[' :: C) = t ++ '[' :: C := by
    rw [hsh]
    show skipWs ('[' :: (b ++ [']'] ++ '[' :: C)) = _
    unfold skipWs
    rw [List.dropWhile_cons, if_neg (by decide)]
    rfl
  have hsk2 : skipWs ('[' :: C) = '[' :: C := by
    unfold skipWs
    rw [List.dropWhile_cons, if_neg (by decide)]
  rw [hskip]
  simp only [hadq]
  rw [if_neg (by rw [hsk2]; simp)]

theorem flatten_frags_shape : ∀ (L : List (List Char)), L ≠ [] →
    (∀ t ∈ L, ∃ b, t = '[' :: b ++ [']']) →
    ∃ B, List.flatten L = '[' :: B ++ [']'] := by
  intro L
  induction L with
  | nil => intro h _; exact absurd rfl h
  | cons t rest ih =>
    intro _ h
    obtain ⟨b, hb⟩ := h t (List.mem_cons_self t rest)
    rcases rest with _ | ⟨u, rest'⟩
    · exact ⟨b, by simp [hb]⟩
    · obtain ⟨B', hB'⟩ := ih (by simp) (fun s hs => h s (List.mem_cons_of_mem t hs))
      refine ⟨b ++ [']'] ++ '[' :: B', ?_⟩
      rw [show List.flatten (t :: u :: rest') = t ++ List.flatten (u :: rest') from rfl,
        hb, hB']
      simp [List.cons_append, List.append_assoc]

theorem replaceBB_flatten : ∀ (L : List (List Char)),
    (∀ t ∈ L, (∃ b, t = '[' :: b ++ [']']) ∧ hasBB t = false) →
    replaceBB (List.flatten L) = joinFrags L := by
  intro L
  induction L with
  | nil => intro _; rfl
  | cons t rest ih =>
    intro h
    obtain ⟨⟨b, hb⟩, hnb⟩ := h t (List.mem_cons_self t rest)
    rcases rest with _ | ⟨u, rest'⟩
    · show replaceBB (t ++ List.flatten []) = joinFrags [t]
      rw [show List.flatten ([] : List (List Char)) = [] from rfl, List.append_nil]
      exact replaceBB_id t hnb
    · obtain ⟨b', hb'⟩ := (h u (by simp)).1
      have hflat : List.flatten (u :: rest') = '[' :: (b' ++ [']'] ++ List.flatten rest') := by
        rw [show List.flatten (u :: rest') = u ++ List.flatten rest' from rfl, hb']
        simp [List.cons_append, List.append_assoc]
      have hih := ih (fun s hs => h s (List.mem_cons_of_mem t hs))
      rw [show List.flatten (t :: u :: rest') = t ++ List.flatten (u :: rest') from rfl,
        hb, hflat, List.append_assoc]
      have hstep := replaceBB_step ('[' :: b) (b' ++ [']'] ++ List.flatten rest')
        (by rw [← hb]; exact hnb)
      rw [show ([']'] : List Char) ++ '[' :: (b' ++ [']'] ++ List.flatten rest') =
        ']' :: '[' :: (b' ++ [']'] ++ List.flatten rest') from rfl, hstep]
      have hcons : replaceBB ('[' :: (b' ++ [']'] ++ List.flatten rest')) =
          '[' :: replaceBB (b' ++ [']'] ++ List.flatten rest') :=
        replaceBB_cons_ne (by decide) _
      rw [hflat, hcons] at hih
      rw [show joinFrags (('[' :: b ++ [']']) :: u :: rest') =
        ('[' :: b ++ [']']) ++ '\n' :: joinFrags (u :: rest') from rfl, ← hih]
      simp [List.cons_append, List.append_assoc]

/-- C2 (amended): the claimed reassembly of back-to-back concatenated JSON
arrays holds for page fragments of the form `'[' :: body ++ [']']` that
contain no internal `][` occurrence and no line-break character — which
covers every fragment `gh api --paginate` emits on one line.  For any
nonempty list of such fragments, each parsing to an array, the reassembly of
their concatenation is the element-wise concatenation of those arrays in
encounter order.  The unamended claim (arbitrary well-formed array texts) is
refuted by `parse_paginated_concat_counterexample`. -/
theorem parse_paginated_concat_pages (L : List (List Char × List Json))
    (hne : L ≠ [])
    (hfr : ∀ p ∈ L, (∃ b, p.1 = '[' :: b ++ [']']) ∧ hasBB p.1 = false ∧
      (∀ c ∈ p.1, isPyLineBreak c = false) ∧
      jsonLoads p.1 = some (Json.arr p.2)) :
    parse_paginated_json (List.flatten (L.map Prod.fst)) =
      Except.ok (List.flatten (L.map Prod.snd)) := by
  rcases L with _ | ⟨⟨t, xs⟩, L'⟩
  · exact absurd rfl hne
  obtain ⟨⟨b, hb⟩, hnb, hlbk, hj⟩ := hfr (t, xs) (List.mem_cons_self _ _)
  rcases L' with _ | ⟨⟨u, ys⟩, L''⟩
  · simp only [List.map_cons, List.map_nil, List.flatten_cons, List.flatten_nil,
      List.append_nil]
    exact ppj_whole_arr hj
  · have hshapes : ∀ s ∈ (((t, xs) :: (u, ys) :: L'').map Prod.fst),
        ∃ b2, s = '[' :: b2 ++ [']'] := by
      intro s hs
      obtain ⟨q, hq, hq2⟩ := List.mem_map.mp hs
      rw [← hq2]
      exact (hfr q hq).1
    obtain ⟨B, hB⟩ := flatten_frags_shape (((u, ys) :: L'').map Prod.fst)
      (by simp)
      (fun s hs => hshapes s (by
        simp only [List.map_cons] at hs ⊢
        exact List.mem_cons_of_mem _ hs))
    have hout : List.flatten (((t, xs) :: (u, ys) :: L'').map Prod.fst) =
        t ++ '[' :: (B ++ [']']) := by
      rw [show List.flatten (((t, xs) :: (u, ys) :: L'').map Prod.fst) =
        t ++ List.flatten (((u, ys) :: L'').map Prod.fst) from rfl]
      rw [hB]
      rfl
    obtain ⟨BB, hBB⟩ := flatten_frags_shape (((t, xs) :: (u, ys) :: L'').map Prod.fst)
      (by simp) hshapes
    have hstrip : pyStrip (List.flatten (((t, xs) :: (u, ys) :: L'').map Prod.fst)) =
        List.flatten (((t, xs) :: (u, ys) :: L'').map Prod.fst) := by
      rw [hBB]
      exact pyStrip_frag BB
    have houtne : List.flatten (((t, xs) :: (u, ys) :: L'').map Prod.fst) ≠ [] := by
      rw [hBB]
      simp
    have hnone : jsonLoads (List.flatten (((t, xs) :: (u, ys) :: L'').map Prod.fst)) =
        none := by
      rw [hout]
      exact jsonLoads_concat_none hb hj
    unfold parse_paginated_json
    rw [hstrip, if_neg houtne]
    simp only [hnone]
    rw [replaceBB_flatten (((t, xs) :: (u, ys) :: L'').map Prod.fst)
      (fun s hs => by
        obtain ⟨q, hq, hq2⟩ := List.mem_map.mp hs
        obtain ⟨h1, h2, _⟩ := hfr q hq
        rw [← hq2]
        exact ⟨h1, h2⟩)]
    rw [pySplitlines_joinFrags (((t, xs) :: (u, ys) :: L'').map Prod.fst)
      (by simp)
      (fun s hs => by
        obtain ⟨q, hq, hq2⟩ := List.mem_map.mp hs
        obtain ⟨⟨b2, hb2⟩, _, h3, _⟩ := hfr q hq
        rw [← hq2]
        exact ⟨by rw [hb2]; simp, by rw [hb2] at h3 ⊢; exact h3⟩)]
    exact parse_chunks_ok _ (fun q hq => ⟨(hfr q hq).1, (hfr q hq).2.2.2⟩)

theorem parse_paginated_concat_counterexample :
    jsonLoads (strL "[\"a][b\"]") = some (Json.arr [Json.str (strL "a][b")]) ∧
    jsonLoads (strL "[1]") = some (Json.arr [Json.num (strL "1")]) ∧
    parse_paginated_json (strL "[\"a][b\"]" ++ strL "[1]") ≠
      Except.ok [Json.str (strL "a][b"), Json.num (strL "1")] := by
  refine ⟨rfl, rfl, ?_⟩
  intro h
  rw [show parse_paginated_json (strL "[\"a][b\"]" ++ strL "[1]") =
    Except.error (strL "[\"a]") from rfl] at h
  exact Except.noConfusion h

theorem parse_paginated_concat_pages_witness :
    (((strL "[1]", [Json.num (strL "1")]) ::
      [(strL "[2]", [Json.num (strL "2")])] ≠ []) ∧
     (∀ p ∈ ((strL "[1]", [Json.num (strL "1")]) ::
        [(strL "[2]", [Json.num (strL "2")])]),
       (∃ b, p.1 = '[' :: b ++ [']']) ∧ hasBB p.1 = false ∧
       (∀ c ∈ p.1, isPyLineBreak c = false) ∧
       jsonLoads p.1 = some (Json.arr p.2))) ∧
    parse_paginated_json (List.flatten
      (((strL "[1]", [Json.num (strL "1")]) ::
        [(strL "[2]", [Json.num (strL "2")])]).map Prod.fst)) =
      Except.ok (List.flatten
        (((strL "[1]", [Json.num (strL "1")]) ::
          [(strL "[2]", [Json.num (strL "2")])]).map Prod.snd)) := by
  have hfr : ∀ p ∈ ((strL "[1]", [Json.num (strL "1")]) ::
      [(strL "[2]", [Json.num (strL "2")])]),
      (∃ b, p.1 = '[' :: b ++ [']']) ∧ hasBB p.1 = false ∧
      (∀ c ∈ p.1, isPyLineBreak c = false) ∧
      jsonLoads p.1 = some (Json.arr p.2) := by
    intro p hp
    rcases List.mem_cons.mp hp with rfl | hp2
    · exact ⟨⟨strL "1", rfl⟩, rfl, by decide, rfl⟩
    · rcases List.mem_cons.mp hp2 with rfl | hp3
      · exact ⟨⟨strL "2", rfl⟩, rfl, by decide, rfl⟩
      · exact absurd hp3 (List.not_mem_nil p)
  exact ⟨⟨by simp, hfr⟩, parse_paginated_concat_pages _ (by simp) hfr⟩

/-- C10: the local scan returns only entries that are directories and whose
names do not start with a dot, all drawn from the directory's entries; every
non-hidden directory entry is included; and a nonexistent path yields an
empty list rather than an error. -/
theorem get_subdirectories_spec (fs : FsEnv) :
    (∀ p ∈ get_subdirectories fs,
      p.isDir = true ∧ startsWithDot p.name = false ∧ p ∈ fs.entries) ∧
    (∀ p ∈ fs.entries, fs.pathExists = true → p.isDir = true →
      startsWithDot p.name = false → p ∈ get_subdirectories fs) ∧
    (fs.pathExists = false → get_subdirectories fs = []) := by
  refine ⟨?_, ?_, ?_⟩
  · intro p hp
    unfold get_subdirectories at hp
    by_cases hex : fs.pathExists = true
    · rw [if_pos hex] at hp
      obtain ⟨hmem, hflt⟩ := List.mem_filter.mp hp
      simp only [Bool.and_eq_true, Bool.not_eq_true'] at hflt
      exact ⟨hflt.1, hflt.2, hmem⟩
    · rw [if_neg hex] at hp
      exact absurd hp (List.not_mem_nil p)
  · intro p hp hex hdir hdot
    unfold get_subdirectories
    rw [if_pos hex]
    exact List.mem_filter.mpr ⟨hp, by rw [hdir, hdot]; rfl⟩
  · intro hex
    unfold get_subdirectories
    rw [if_neg (by rw [hex]; simp)]

theorem get_subdirectories_spec_witness :
    (∀ p ∈ get_subdirectories ⟨true, true,
        [⟨strL ".git", true⟩, ⟨strL "proj", true⟩, ⟨strL "notes.txt", false⟩]⟩,
      p.isDir = true ∧ startsWithDot p.name = false ∧
        p ∈ (⟨true, true, [⟨strL ".git", true⟩, ⟨strL "proj", true⟩,
          ⟨strL "notes.txt", false⟩]⟩ : FsEnv).entries) ∧
    (∀ p ∈ (⟨true, true, [⟨strL ".git", true⟩, ⟨strL "proj", true⟩,
        ⟨strL "notes.txt", false⟩]⟩ : FsEnv).entries,
      (⟨true, true, [⟨strL ".git", true⟩, ⟨strL "proj", true⟩,
        ⟨strL "notes.txt", false⟩]⟩ : FsEnv).pathExists = true → p.isDir = true →
      startsWithDot p.name = false →
      p ∈ get_subdirectories ⟨true, true, [⟨strL ".git", true⟩,
        ⟨strL "proj", true⟩, ⟨strL "notes.txt", false⟩]⟩) ∧
    ((⟨true, true, [⟨strL ".git", true⟩, ⟨strL "proj", true⟩,
        ⟨strL "notes.txt", false⟩]⟩ : FsEnv).pathExists = false →
      get_subdirectories ⟨true, true, [⟨strL ".git", true⟩,
        ⟨strL "proj", true⟩, ⟨strL "notes.txt", false⟩]⟩ = []) :=
  get_subdirectories_spec _

theorem guLoop_all_fail (env : GhEnv) : ∀ (eps errors : List (List Char)),
    (∀ e ∈ eps, ∀ r, env.paginate e = RunOutcome.completed r → r.rc ≠ 0) →
    (guLoop env errors eps).1 = [] ∧ (guLoop env errors eps).2 ≠ [] := by
  intro eps
  induction eps with
  | nil =>
    intro errors _
    exact ⟨rfl, by simp [guLoop]⟩
  | cons e rest ih =>
    intro errors h
    rcases hpe : env.paginate e with r | _ | m
    · have hrc : ¬r.rc = 0 := h e (List.mem_cons_self e rest) r hpe
      simp only [guLoop, hpe, if_neg hrc]
      exact ih _ (fun e2 he2 => h e2 (List.mem_cons_of_mem e he2))
    · simp only [guLoop, hpe]
      exact ⟨trivial, by simp⟩
    · simp only [guLoop, hpe]
      exact ⟨trivial, by simp⟩

/-- C5: when every attempted endpoint of the bulk fetch fails — every
completed call has nonzero exit, or the call times out or raises — then
`get_user_repos` returns the empty repository list and prints a diagnostic,
rather than raising or returning partial data. -/
theorem get_user_repos_failure_empty (env : GhEnv) (username : List Char)
    (hfail : ∀ e ∈ endpointsFor env username,
      ∀ r, env.paginate e = RunOutcome.completed r → r.rc ≠ 0) :
    (get_user_repos env username).1 = [] ∧
    (get_user_repos env username).2 ≠ [] :=
  guLoop_all_fail env (endpointsFor env username) [] hfail

theorem get_user_repos_failure_empty_witness :
    (∀ e ∈ endpointsFor
        ⟨.completed ⟨0, [], []⟩, .timeout, fun _ _ => .timeout,
          fun _ => .completed ⟨1, [], strL "HTTP 404"⟩⟩ (strL "jwdeane"),
      ∀ r, GhEnv.paginate
        ⟨.completed ⟨0, [], []⟩, .timeout, fun _ _ => .timeout,
          fun _ => .completed ⟨1, [], strL "HTTP 404"⟩⟩ e =
          RunOutcome.completed r → r.rc ≠ 0) ∧
    ((get_user_repos
        ⟨.completed ⟨0, [], []⟩, .timeout, fun _ _ => .timeout,
          fun _ => .completed ⟨1, [], strL "HTTP 404"⟩⟩ (strL "jwdeane")).1 = [] ∧
     (get_user_repos
        ⟨.completed ⟨0, [], []⟩, .timeout, fun _ _ => .timeout,
          fun _ => .completed ⟨1, [], strL "HTTP 404"⟩⟩ (strL "jwdeane")).2 ≠ []) :=
  ⟨fun _ _ r hr => by
      rw [← (RunOutcome.completed.inj hr)]
      decide,
   get_user_repos_failure_empty _ _ (fun _ _ r hr => by
      rw [← (RunOutcome.completed.inj hr)]
      decide)⟩

theorem countP_bang_zero {α : Type} (l : List (α × Bool)) :
    l.countP (fun p => !p.2) = 0 ↔ ∀ p ∈ l, p.2 = true := by
  rw [List.countP_eq_zero]
  constructor
  · intro h p hp
    have h2 := h p hp
    simp only [Bool.not_eq_true'] at h2
    rcases hb : p.2 with _ | _
    · exact absurd hb h2
    · rfl
  · intro h p hp
    simp [h p hp]

theorem mem_dictUpsert {β : Type} : ∀ (d : List (List Char × β)) k v p,
    p ∈ dictUpsert d k v → p = (k, v) ∨ p ∈ d := by
  intro d
  induction d with
  | nil =>
    intro k v p hp
    simp [dictUpsert] at hp
    exact Or.inl hp
  | cons q rest ih =>
    intro k v p hp
    obtain ⟨k2, v2⟩ := q
    simp only [dictUpsert] at hp
    by_cases hk : k2 = k
    · rw [if_pos hk] at hp
      rcases List.mem_cons.mp hp with h1 | h2
      · exact Or.inl h1
      · exact Or.inr (List.mem_cons_of_mem _ h2)
    · rw [if_neg hk] at hp
      rcases List.mem_cons.mp hp with h1 | h2
      · exact Or.inr (by rw [h1]; exact List.mem_cons_self _ _)
      · rcases ih k v p h2 with h3 | h4
        · exact Or.inl h3
        · exact Or.inr (List.mem_cons_of_mem _ h4)

theorem mem_dictUpsert_self {β : Type} : ∀ (d : List (List Char × β)) k v,
    (k, v) ∈ dictUpsert d k v := by
  intro d
  induction d with
  | nil => intro k v; simp [dictUpsert]
  | cons q rest ih =>
    intro k v
    obtain ⟨k2, v2⟩ := q
    simp only [dictUpsert]
    by_cases hk : k2 = k
    · rw [if_pos hk]
      exact List.mem_cons_self _ _
    · rw [if_neg hk]
      exact List.mem_cons_of_mem _ (ih k v)

theorem dictUpsert_keep {β : Type} : ∀ (d : List (List Char × β)) k v k2 v2,
    (k2 = k → v2 = v) → (k, v) ∈ d → (k, v) ∈ dictUpsert d k2 v2 := by
  intro d
  induction d with
  | nil =>
    intro k v k2 v2 _ h
    exact absurd h (List.not_mem_nil _)
  | cons q rest ih =>
    intro k v k2 v2 hkv h
    obtain ⟨k3, v3⟩ := q
    simp only [dictUpsert]
    by_cases hk : k3 = k2
    · rw [if_pos hk]
      rcases List.mem_cons.mp h with h1 | h2
      · have hk3 : k = k3 := congrArg Prod.fst h1
        have hv3 : v = v3 := congrArg Prod.snd h1
        have hkk : k2 = k := by rw [← hk, hk3]
        have hvv : v2 = v := hkv hkk
        exact List.mem_cons.mpr (Or.inl (by rw [hkk, hvv]))
      · exact List.mem_cons_of_mem _ h2
    · rw [if_neg hk]
      rcases List.mem_cons.mp h with h1 | h2
      · exact List.mem_cons.mpr (Or.inl h1)
      · exact List.mem_cons.mpr (Or.inr (ih k v k2 v2 hkv h2))

theorem foldUpsert_mem {α β : Type} (kf : α → List Char) (g : α → β) :
    ∀ (l : List α) (acc : List (List Char × β)) p,
      p ∈ l.foldl (fun acc2 d => dictUpsert acc2 (kf d) (g d)) acc →
      p ∈ acc ∨ ∃ d ∈ l, p = (kf d, g d) := by
  intro l
  induction l with
  | nil =>
    intro acc p hp
    exact Or.inl hp
  | cons a rest ih =>
    intro acc p hp
    simp only [List.foldl_cons] at hp
    rcases ih _ p hp with h1 | h2
    · rcases mem_dictUpsert _ _ _ _ h1 with h3 | h4
      · exact Or.inr ⟨a, List.mem_cons_self _ _, h3⟩
      · exact Or.inl h4
    · obtain ⟨d, hd, hpd⟩ := h2
      exact Or.inr ⟨d, List.mem_cons_of_mem _ hd, hpd⟩

theorem foldUpsert_persist {α β : Type} (kf : α → List Char) (g : α → β)
    (hg : ∀ d d2, kf d = kf d2 → g d = g d2) :
    ∀ (l : List α) (acc : List (List Char × β)) (d0 : α),
      (kf d0, g d0) ∈ acc →
      (kf d0, g d0) ∈ l.foldl (fun acc2 d => dictUpsert acc2 (kf d) (g d)) acc := by
  intro l
  induction l with
  | nil => intro acc d0 h; exact h
  | cons a rest ih =>
    intro acc d0 h
    simp only [List.foldl_cons]
    exact ih _ d0 (dictUpsert_keep acc (kf d0) (g d0) (kf a) (g a)
      (fun hk => hg a d0 hk) h)

theorem foldUpsert_covers {α β : Type} (kf : α → List Char) (g : α → β)
    (hg : ∀ d d2, kf d = kf d2 → g d = g d2) :
    ∀ (l : List α) (acc : List (List Char × β)) (d : α), d ∈ l →
      (kf d, g d) ∈ l.foldl (fun acc2 d2 => dictUpsert acc2 (kf d2) (g d2)) acc := by
  intro l
  induction l with
  | nil => intro acc d hd; exact absurd hd (List.not_mem_nil _)
  | cons a rest ih =>
    intro acc d hd
    simp only [List.foldl_cons]
    rcases List.mem_cons.mp hd with rfl | h2
    · exact foldUpsert_persist kf g hg rest _ d (mem_dictUpsert_self acc (kf d) (g d))
    · exact ih _ d h2

theorem foldUpsert_all_true {α : Type} (kf : α → List Char) (g : α → Bool)
    (hg : ∀ d d2, kf d = kf d2 → g d = g d2) (l : List α) :
    (∀ p ∈ l.foldl (fun acc d => dictUpsert acc (kf d) (g d)) [], p.2 = true) ↔
    (∀ d ∈ l, g d = true) := by
  constructor
  · intro h d hd
    exact h (kf d, g d) (foldUpsert_covers kf g hg l [] d hd)
  · intro h p hp
    rcases foldUpsert_mem kf g l [] p hp with h1 | h2
    · exact absurd h1 (List.not_mem_nil p)
    · obtain ⟨d, hd, rfl⟩ := h2
      exact h d hd

theorem mem_insertBy {α : Type} (le : α → α → Bool) (x : α) :
    ∀ (l : List α) (a : α), a ∈ insertBy le x l ↔ a = x ∨ a ∈ l := by
  intro l
  induction l with
  | nil => intro a; simp [insertBy]
  | cons y ys ih =>
    intro a
    simp only [insertBy]
    by_cases hle : le x y = true
    · rw [if_pos hle]
      simp [List.mem_cons]
    · rw [if_neg hle]
      constructor
      · intro h
        rcases List.mem_cons.mp h with rfl | h2
        · exact Or.inr (List.mem_cons_self _ _)
        · rcases (ih a).mp h2 with h3 | h4
          · exact Or.inl h3
          · exact Or.inr (List.mem_cons_of_mem _ h4)
      · intro h
        rcases h with rfl | h2
        · exact List.mem_cons_of_mem _ ((ih a).mpr (Or.inl rfl))
        · rcases List.mem_cons.mp h2 with rfl | h3
          · exact List.mem_cons_self _ _
          · exact List.mem_cons_of_mem _ ((ih a).mpr (Or.inr h3))

theorem mem_sortBy {α : Type} (le : α → α → Bool) :
    ∀ (l : List α) (a : α), a ∈ sortBy le l ↔ a ∈ l := by
  intro l
  induction l with
  | nil => intro a; simp [sortBy]
  | cons y ys ih =>
    intro a
    show a ∈ insertBy le y (sortBy le ys) ↔ _
    rw [mem_insertBy]
    rw [ih a]
    simp [List.mem_cons]

theorem check_all_repos_all_exist (env : GhEnv) (fs : FsEnv)
    (username : List Char) :
    ((check_all_repos env fs username).countP (fun p => !p.2) = 0) ↔
    (∀ d ∈ get_subdirectories fs,
      check_github_repo_exists env username d.name = true) := by
  unfold check_all_repos
  by_cases hsub : (get_subdirectories fs).isEmpty
  · rw [if_pos hsub]
    rw [List.isEmpty_iff] at hsub
    constructor
    · intro _ d hd
      rw [hsub] at hd
      exact absurd hd (List.not_mem_nil d)
    · intro _
      rfl
  · rw [if_neg hsub]
    rw [countP_bang_zero]
    have hiff := foldUpsert_all_true FsEntry.name
      (fun s => check_github_repo_exists env username s.name)
      (fun d d2 hdd => by
        show check_github_repo_exists env username d.name = _
        rw [show d.name = d2.name from hdd])
      (sortBy (fun a b => lexLe a.name b.name) (get_subdirectories fs))
    refine Iff.trans hiff ?_
    constructor
    · intro h d hd
      exact h d ((mem_sortBy _ _ d).mpr hd)
    · intro h d hd
      exact h d ((mem_sortBy _ _ d).mp hd)

/-- C6: for a run of `main` that terminates normally (no uncaught
exception), the exit code is always 0 or 1; it is 1 on every precondition
failure (gh not installed or not authenticated, username undeterminable,
directory missing, not a directory); and once the preconditions hold it is
0 exactly when the relevant missing set is empty — every local subdirectory
found remotely in normal mode, every fetched repository marked as locally
present in inverse mode. -/
theorem main_exit_codes (env : GhEnv) (fs : FsEnv) (args : Args) (code : Nat)
    (h : mainModel env fs args = Except.ok code) :
    (code = 0 ∨ code = 1) ∧
    (check_gh_installed env = Except.ok false → code = 1) ∧
    (resolveUsername env args = none → code = 1) ∧
    (fs.pathExists = false → code = 1) ∧
    (fs.isDir = false → code = 1) ∧
    (∀ u, check_gh_installed env = Except.ok true →
      resolveUsername env args = some u →
      fs.pathExists = true → fs.isDir = true →
      (args.inverse = false →
        (code = 0 ↔ ∀ d ∈ get_subdirectories fs,
          check_github_repo_exists env u d.name = true)) ∧
      (args.inverse = true → ∀ results,
        check_missing_local env fs u = Except.ok results →
        (code = 0 ↔ ∀ p ∈ results, p.2 = true))) := by
  unfold mainModel at h
  rcases hgh : check_gh_installed env with e | installed
  · simp only [hgh] at h
    exact absurd h (by simp)
  · simp only [hgh] at h
    rcases installed with _ | _
    · have h3 : (Except.ok 1 : Except PyErr Nat) = Except.ok code := h
      obtain rfl : code = 1 := (Except.ok.inj h3).symm
      refine ⟨Or.inr rfl, fun _ => rfl, fun _ => rfl, fun _ => rfl, fun _ => rfl, ?_⟩
      intro u hgi
      exact absurd (Except.ok.inj hgi) (by decide)
    · rcases hru : resolveUsername env args with _ | u
      · simp only [hru] at h
        have h3 : (Except.ok 1 : Except PyErr Nat) = Except.ok code := h
        obtain rfl : code = 1 := (Except.ok.inj h3).symm
        refine ⟨Or.inr rfl, fun _ => rfl, fun _ => rfl, fun _ => rfl, fun _ => rfl, ?_⟩
        intro u hgi hru2
        exact absurd hru2 (by simp)
      · simp only [hru] at h
        rcases hpe : fs.pathExists with _ | _
        · rw [hpe] at h
          have h3 : (Except.ok 1 : Except PyErr Nat) = Except.ok code := h
          obtain rfl : code = 1 := (Except.ok.inj h3).symm
          refine ⟨Or.inr rfl, fun _ => rfl, fun _ => rfl, fun _ => rfl,
            fun _ => rfl, ?_⟩
          intro u2 hgi hru2 hpe2
          exact absurd hpe2 (by decide)
        · rw [hpe] at h
          rcases hdi : fs.isDir with _ | _
          · rw [hdi] at h
            have h3 : (Except.ok 1 : Except PyErr Nat) = Except.ok code := h
            obtain rfl : code = 1 := (Except.ok.inj h3).symm
            refine ⟨Or.inr rfl, fun _ => rfl, fun _ => rfl, fun _ => rfl,
              fun _ => rfl, ?_⟩
            intro u2 hgi hru2 hpe2 hdi2
            exact absurd hdi2 (by decide)
          · rw [hdi] at h
            rcases hinv : args.inverse with _ | _
            · rw [hinv] at h
              have h3 : (Except.ok (if (check_all_repos env fs u).countP
                  (fun p => !p.2) = 0 then 0 else 1) : Except PyErr Nat) =
                  Except.ok code := h
              have hc : code = (if (check_all_repos env fs u).countP
                  (fun p => !p.2) = 0 then 0 else 1) := (Except.ok.inj h3).symm
              refine ⟨?_, fun hgi => absurd (Except.ok.inj hgi) (by decide),
                fun hru2 => absurd hru2 (by simp),
                fun hpe2 => absurd hpe2 (by decide),
                fun hdi2 => absurd hdi2 (by decide), ?_⟩
              · by_cases hcnt : (check_all_repos env fs u).countP
                    (fun p => !p.2) = 0
                · rw [hc, if_pos hcnt]
                  exact Or.inl rfl
                · rw [hc, if_neg hcnt]
                  exact Or.inr rfl
              · intro u2 _ hru2 _ _
                have huu : u2 = u := (Option.some.inj hru2).symm
                rw [huu]
                refine ⟨fun _ => ?_, fun hinv2 => absurd hinv2 (by decide)⟩
                rw [hc]
                by_cases hcnt : (check_all_repos env fs u).countP
                    (fun p => !p.2) = 0
                · rw [if_pos hcnt]
                  exact ⟨fun _ => (check_all_repos_all_exist env fs u).mp hcnt,
                    fun _ => rfl⟩
                · rw [if_neg hcnt]
                  refine ⟨fun h0 => absurd h0 (by decide), fun hall => ?_⟩
                  exact absurd ((check_all_repos_all_exist env fs u).mpr hall) hcnt
            · rw [hinv] at h
              rcases hcml : check_missing_local env fs u with e2 | results0
              · rw [hcml] at h
                exact absurd (show (Except.error e2 : Except PyErr Nat) =
                  Except.ok code from h) (by simp)
              · rw [hcml] at h
                have h3 : (Except.ok (if results0.countP (fun p => !p.2) = 0
                    then 0 else 1) : Except PyErr Nat) = Except.ok code := h
                have hc : code = (if results0.countP (fun p => !p.2) = 0
                    then 0 else 1) := (Except.ok.inj h3).symm
                refine ⟨?_, fun hgi => absurd (Except.ok.inj hgi) (by decide),
                  fun hru2 => absurd hru2 (by simp),
                  fun hpe2 => absurd hpe2 (by decide),
                  fun hdi2 => absurd hdi2 (by decide), ?_⟩
                · by_cases hcnt : results0.countP (fun p => !p.2) = 0
                  · rw [hc, if_pos hcnt]
                    exact Or.inl rfl
                  · rw [hc, if_neg hcnt]
                    exact Or.inr rfl
                · intro u2 _ hru2 _ _
                  have huu : u2 = u := (Option.some.inj hru2).symm
                  rw [huu]
                  refine ⟨fun hinv2 => absurd hinv2 (by decide), fun _ => ?_⟩
                  intro results2 hres2
                  have hrr : results2 = results0 :=
                    Except.ok.inj (hres2.symm.trans hcml)
                  rw [hrr, hc]
                  by_cases hcnt : results0.countP (fun p => !p.2) = 0
                  · rw [if_pos hcnt]
                    exact ⟨fun _ => (countP_bang_zero results0).mp hcnt,
                      fun _ => rfl⟩
                  · rw [if_neg hcnt]
                    refine ⟨fun h0 => absurd h0 (by decide), fun hall => ?_⟩
                    exact absurd ((countP_bang_zero results0).mpr hall) hcnt

theorem main_exit_codes_witness :
    mainModel ghEnvScenario fsScenario argsScenario = Except.ok 1 ∧
    (((1 : Nat) = 0 ∨ (1 : Nat) = 1) ∧
     (check_gh_installed ghEnvScenario = Except.ok false → (1 : Nat) = 1) ∧
     (resolveUsername ghEnvScenario argsScenario = none → (1 : Nat) = 1) ∧
     (fsScenario.pathExists = false → (1 : Nat) = 1) ∧
     (fsScenario.isDir = false → (1 : Nat) = 1) ∧
     (∀ u, check_gh_installed ghEnvScenario = Except.ok true →
       resolveUsername ghEnvScenario argsScenario = some u →
       fsScenario.pathExists = true → fsScenario.isDir = true →
       (argsScenario.inverse = false →
         ((1 : Nat) = 0 ↔ ∀ d ∈ get_subdirectories fsScenario,
           check_github_repo_exists ghEnvScenario u d.name = true)) ∧
       (argsScenario.inverse = true → ∀ results,
         check_missing_local ghEnvScenario fsScenario u = Except.ok results →
         ((1 : Nat) = 0 ↔ ∀ p ∈ results, p.2 = true)))) :=
  ⟨rfl, main_exit_codes ghEnvScenario fsScenario argsScenario 1 rfl⟩

theorem evid_bracket (rest : List Char) :
    extract_video_id ('[' :: rest) =
      (if (rest.takeWhile (fun c => !(c = ']'))).isEmpty then
        extract_video_id rest
       else match rest.dropWhile (fun c => !(c = ']')) with
       | ']' :: _ => some (rest.takeWhile (fun c => !(c = ']')))
       | _ => extract_video_id rest) := rfl

theorem evid_other {c : Char} (hc : ¬c = '[') (rest : List Char) :
    extract_video_id (c :: rest) = extract_video_id rest := by
  rw [extract_video_id.eq_def]
  split
  next heq => exact List.noConfusion heq
  next rest2 heq =>
    obtain ⟨h1, _⟩ := List.cons.inj heq
    exact absurd h1 hc
  next c2 rest2 _ heq =>
    obtain ⟨_, h2⟩ := List.cons.inj heq
    rw [h2]

theorem bm_stop (post2 : List Char) :
    headStops (fun c => !(c = ']')) (']' :: post2) := by
  show (fun c => !(c = ']')) ']' = false
  decide

theorem bm_pass {mid2 : List Char} (hmid : ∀ c ∈ mid2, c ≠ ']') :
    ∀ c ∈ mid2, (fun c => !(c = ']')) c = true := by
  intro c hc
  simp [hmid c hc]

theorem takeWhile_of_all {p : Char → Bool} : ∀ {l : List Char},
    (∀ c ∈ l, p c = true) → List.takeWhile p l = l := by
  intro l
  induction l with
  | nil => intro _; rfl
  | cons a t ih =>
    intro h
    rw [List.takeWhile_cons, if_pos (h a (List.mem_cons_self a t)),
      ih (fun c hc => h c (List.mem_cons_of_mem a hc))]

theorem evid_sound : ∀ (s : List Char), ∀ id, extract_video_id s = some id →
    ∃ pre post, BracketMatch s pre id post ∧
      ∀ pre2 mid2 post2, BracketMatch s pre2 mid2 post2 →
        pre.length ≤ pre2.length := by
  intro s
  induction s using extract_video_id.induct with
  | case1 =>
    intro id hid
    exact absurd hid (by simp [extract_video_id])
  | case2 rest inner h ih1 =>
    intro id hid
    rw [evid_bracket, if_pos h] at hid
    obtain ⟨pre2, post2, bm2, min2⟩ := ih1 id hid
    refine ⟨'[' :: pre2, post2, ⟨by rw [bm2.1]; rfl, bm2.2.1, bm2.2.2⟩, ?_⟩
    intro pre3 mid3 post3 bm3
    rcases pre3 with _ | ⟨d, pre3'⟩
    · obtain ⟨hs3, hm3ne, hm3⟩ := bm3
      rw [List.nil_append] at hs3
      obtain ⟨_, hrest⟩ := List.cons.inj hs3
      exfalso
      have htw : rest.takeWhile (fun c => !(c = ']')) = mid3 := by
        rw [hrest, takeWhile_append_stop (bm_stop post3), takeWhile_of_all (bm_pass hm3)]
      rw [List.isEmpty_iff] at h
      have hmid3 : mid3 = [] := by
        rw [← htw]
        exact h
      exact hm3ne hmid3
    · obtain ⟨hs3, hm3ne, hm3⟩ := bm3
      obtain ⟨_, hrest⟩ := List.cons.inj hs3
      have := min2 pre3' mid3 post3 ⟨hrest, hm3ne, hm3⟩
      simp only [List.length_cons]
      omega
  | case3 rest inner h r2 heq =>
    intro id hid
    rw [evid_bracket, if_neg h] at hid
    simp only [heq] at hid
    obtain ⟨hidv⟩ := hid
    refine ⟨[], r2, ⟨?_, ?_, ?_⟩, ?_⟩
    · rw [List.nil_append]
      conv_lhs => rw [show rest = rest.takeWhile (fun c => !(c = ']')) ++
        rest.dropWhile (fun c => !(c = ']')) from
          (List.takeWhile_append_dropWhile _ _).symm]
      rw [heq]
    · intro hnil
      rw [List.isEmpty_iff] at h
      exact h hnil
    · intro c hc
      have := takeWhile_all c hc
      simpa using this
    · intro pre2 mid2 post2 _
      exact Nat.zero_le _
  | case4 rest inner h hne ih1 =>
    intro id hid
    rw [evid_bracket, if_neg h] at hid
    have hnid : (match rest.dropWhile (fun c => !(c = ']')) with
        | ']' :: _ => some (rest.takeWhile (fun c => !(c = ']')))
        | _ => extract_video_id rest) = extract_video_id rest := by
      rcases hdw : rest.dropWhile (fun c => !(c = ']')) with _ | ⟨d, r3⟩
      · rfl
      · have hd := dropWhile_head_false hdw
        have hd2 : d = ']' := by
          have hd3 : (!decide (d = ']')) = false := hd
          simpa using hd3
        rw [hd2] at hdw
        exact absurd hdw (by intro hq; exact hne r3 hq)
    rw [hnid] at hid
    obtain ⟨pre2, post2, bm2, min2⟩ := ih1 id hid
    refine ⟨'[' :: pre2, post2, ⟨by rw [bm2.1]; rfl, bm2.2.1, bm2.2.2⟩, ?_⟩
    intro pre3 mid3 post3 bm3
    rcases pre3 with _ | ⟨d, pre3'⟩
    · obtain ⟨hs3, hm3ne, hm3⟩ := bm3
      rw [List.nil_append] at hs3
      obtain ⟨_, hrest⟩ := List.cons.inj hs3
      exfalso
      have hdw : rest.dropWhile (fun c => !(c = ']')) = ']' :: post3 := by
        rw [hrest, dropWhile_append_stop (bm_stop post3),
          List.dropWhile_eq_nil_iff.mpr (bm_pass hm3), List.nil_append]
      exact hne post3 hdw
    · obtain ⟨hs3, hm3ne, hm3⟩ := bm3
      obtain ⟨_, hrest⟩ := List.cons.inj hs3
      have := min2 pre3' mid3 post3 ⟨hrest, hm3ne, hm3⟩
      simp only [List.length_cons]
      omega
  | case5 c rest hnb ih1 =>
    intro id hid
    rw [evid_other (fun hq => hnb hq)] at hid
    obtain ⟨pre2, post2, bm2, min2⟩ := ih1 id hid
    refine ⟨c :: pre2, post2, ⟨by rw [bm2.1]; rfl, bm2.2.1, bm2.2.2⟩, ?_⟩
    intro pre3 mid3 post3 bm3
    rcases pre3 with _ | ⟨d, pre3'⟩
    · obtain ⟨hs3, _, _⟩ := bm3
      rw [List.nil_append] at hs3
      obtain ⟨h1, _⟩ := List.cons.inj hs3
      exact absurd h1 (fun hq => hnb hq)
    · obtain ⟨hs3, hm3ne, hm3⟩ := bm3
      obtain ⟨_, hrest⟩ := List.cons.inj hs3
      have := min2 pre3' mid3 post3 ⟨hrest, hm3ne, hm3⟩
      simp only [List.length_cons]
      omega

theorem evid_none : ∀ (s : List Char), extract_video_id s = none →
    ∀ pre mid post, ¬BracketMatch s pre mid post := by
  intro s
  induction s using extract_video_id.induct with
  | case1 =>
    intro _ pre mid post bm
    obtain ⟨hs, _, _⟩ := bm
    rcases pre with _ | ⟨d, pre'⟩
    · exact List.noConfusion hs
    · exact List.noConfusion hs
  | case2 rest inner h ih1 =>
    intro hid pre mid post bm
    rw [evid_bracket, if_pos h] at hid
    obtain ⟨hs, hmne, hm⟩ := bm
    rcases pre with _ | ⟨d, pre'⟩
    · rw [List.nil_append] at hs
      obtain ⟨_, hrest⟩ := List.cons.inj hs
      have htw : rest.takeWhile (fun c => !(c = ']')) = mid := by
        rw [hrest, takeWhile_append_stop (bm_stop post), takeWhile_of_all (bm_pass hm)]
      rw [List.isEmpty_iff] at h
      have hmid : mid = [] := by
        rw [← htw]
        exact h
      exact hmne hmid
    · obtain ⟨_, hrest⟩ := List.cons.inj hs
      exact ih1 hid pre' mid post ⟨hrest, hmne, hm⟩
  | case3 rest inner h r2 heq =>
    intro hid
    rw [evid_bracket, if_neg h] at hid
    simp only [heq] at hid
    exact absurd hid (by simp)
  | case4 rest inner h hne ih1 =>
    intro hid pre mid post bm
    rw [evid_bracket, if_neg h] at hid
    have hnid : (match rest.dropWhile (fun c => !(c = ']')) with
        | ']' :: _ => some (rest.takeWhile (fun c => !(c = ']')))
        | _ => extract_video_id rest) = extract_video_id rest := by
      rcases hdw : rest.dropWhile (fun c => !(c = ']')) with _ | ⟨d, r3⟩
      · rfl
      · have hd := dropWhile_head_false hdw
        have hd2 : d = ']' := by
          have hd3 : (!decide (d = ']')) = false := hd
          simpa using hd3
        rw [hd2] at hdw
        exact absurd hdw (by intro hq; exact hne r3 hq)
    rw [hnid] at hid
    obtain ⟨hs, hmne, hm⟩ := bm
    rcases pre with _ | ⟨d, pre'⟩
    · rw [List.nil_append] at hs
      obtain ⟨_, hrest⟩ := List.cons.inj hs
      have hdw : rest.dropWhile (fun c => !(c = ']')) = ']' :: post := by
        rw [hrest, dropWhile_append_stop (bm_stop post),
          List.dropWhile_eq_nil_iff.mpr (bm_pass hm), List.nil_append]
      exact hne post hdw
    · obtain ⟨_, hrest⟩ := List.cons.inj hs
      exact ih1 hid pre' mid post ⟨hrest, hmne, hm⟩
  | case5 c rest hnb ih1 =>
    intro hid pre mid post bm
    rw [evid_other (fun hq => hnb hq)] at hid
    obtain ⟨hs, hmne, hm⟩ := bm
    rcases pre with _ | ⟨d, pre'⟩
    · rw [List.nil_append] at hs
      obtain ⟨h1, _⟩ := List.cons.inj hs
      exact absurd h1 (fun hq => hnb hq)
    · obtain ⟨_, hrest⟩ := List.cons.inj hs
      exact ih1 hid pre' mid post ⟨hrest, hmne, hm⟩

/-- C7: identifier extraction returns exactly the leftmost bracketed group
— a nonempty run of non-`]` characters between `[` and `]` at the earliest
possible offset — and returns nothing exactly when no such group exists;
in particular the three specification examples hold. -/
theorem extract_video_id_first_bracket :
    (∀ s id, extract_video_id s = some id →
      ∃ pre post, BracketMatch s pre id post ∧
        ∀ pre2 mid2 post2, BracketMatch s pre2 mid2 post2 →
          pre.length ≤ pre2.length) ∧
    (∀ s, extract_video_id s = none →
      ∀ pre mid post, ¬BracketMatch s pre mid post) ∧
    extract_video_id (strL "Intro [abc123].mp4") = some (strL "abc123") ∧
    extract_video_id (strL "no-brackets.mp4") = none ∧
    extract_video_id (strL "[first][second].mp4") = some (strL "first") :=
  ⟨evid_sound, evid_none, rfl, rfl, rfl⟩

theorem splitExt_noDot : ∀ {l : List Char}, '.' ∉ l → splitExt l = (l, []) := by
  intro l h
  rcases l with _ | ⟨c, t⟩
  · rfl
  · have hc : ¬(c = '.') := fun hq => h (by rw [← hq]; exact List.mem_cons_self c t)
    have h1 : List.takeWhile (fun x => decide (x = '.')) (c :: t) = [] := by
      rw [List.takeWhile_cons, if_neg (by simp [hc])]
    have h2 : List.dropWhile (fun x => decide (x = '.')) (c :: t) = c :: t := by
      rw [List.dropWhile_cons, if_neg (by simp [hc])]
    have h3 : List.dropWhile (fun x => !decide (x = '.')) (c :: t).reverse = [] := by
      rw [List.dropWhile_eq_nil_iff]
      intro d hd
      have hdne : d ≠ '.' := fun hq => h (by rw [← hq]; exact List.mem_reverse.mp hd)
      simp [hdne]
    unfold splitExt
    simp only [h1, h2, h3]

theorem splitExt_append_jpg (vid : List Char) :
    splitExt ((strL "temp_" ++ vid) ++ strL ".jpg") =
      (strL "temp_" ++ vid, strL ".jpg") := by
  have hshape : (strL "temp_" ++ vid) ++ strL ".jpg" =
      't' :: ((strL "emp_" ++ vid) ++ strL ".jpg") := rfl
  have h1 : List.takeWhile (fun x => decide (x = '.'))
      ((strL "temp_" ++ vid) ++ strL ".jpg") = [] := by
    rw [hshape, List.takeWhile_cons, if_neg (by decide)]
  have h2 : List.dropWhile (fun x => decide (x = '.'))
      ((strL "temp_" ++ vid) ++ strL ".jpg") =
      (strL "temp_" ++ vid) ++ strL ".jpg" := by
    rw [hshape, List.dropWhile_cons, if_neg (by decide)]
  have hrev : ((strL "temp_" ++ vid) ++ strL ".jpg").reverse =
      'g' :: 'p' :: 'j' :: '.' :: (strL "temp_" ++ vid).reverse := by
    rw [List.reverse_append]
    rfl
  have h4 : List.dropWhile (fun x => !decide (x = '.'))
      ('g' :: 'p' :: 'j' :: '.' :: (strL "temp_" ++ vid).reverse) =
      '.' :: (strL "temp_" ++ vid).reverse := rfl
  have h5 : List.takeWhile (fun x => !decide (x = '.'))
      ('g' :: 'p' :: 'j' :: '.' :: (strL "temp_" ++ vid).reverse) =
      ['g', 'p', 'j'] := rfl
  unfold splitExt
  simp only [h1, h2, hrev, h4, h5, List.nil_append, List.reverse_reverse]
  rfl

theorem dot_not_mem_temp {vid : List Char} (h : '.' ∉ vid) :
    '.' ∉ strL "temp_" ++ vid := by
  intro hm
  rcases List.mem_append.mp hm with h1 | h2
  · exact absurd h1 (by decide)
  · exact h h2

theorem withSuffix_temp {vid : List Char} (h : '.' ∉ vid) :
    withSuffix (strL "temp_" ++ vid) (strL ".jpg") =
      (strL "temp_" ++ vid) ++ strL ".jpg" := by
  unfold withSuffix
  rw [splitExt_noDot (dot_not_mem_temp h)]

theorem suffixOf_temp_jpg (vid : List Char) :
    suffixOf ((strL "temp_" ++ vid) ++ strL ".jpg") = strL ".jpg" := by
  unfold suffixOf
  rw [splitExt_append_jpg]

theorem download_thumbnail_counterexample :
    (download_thumbnail ⟨fun _ _ => .ok [strL "temp_v.bin"]⟩ []
      (strL "v") (strL "Talk [v]") false).ok = true ∧
    (download_thumbnail ⟨fun _ _ => .ok [strL "temp_v.bin"]⟩
      (download_thumbnail ⟨fun _ _ => .ok [strL "temp_v.bin"]⟩ []
        (strL "v") (strL "Talk [v]") false).files
      (strL "v") (strL "Talk [v]") false).invocations ≠ 0 :=
  ⟨rfl, by decide⟩

/-- C8 (amended): the skip-if-exists short-circuit holds unconditionally —
with a recognized `<base>.<ext>` present, `download_thumbnail` makes no
downloader invocation, succeeds, and leaves the directory unchanged, with
no side condition.  Full two-run idempotence additionally needs the
downloader to conform — to produce exactly `temp_<id>.jpg` for the temp
prefix — and a dot-free video id (those hypotheses scope only over the
two-run conjunct); then a second execute-mode run makes no downloader
invocation and changes nothing.  Without downloader conformance idempotence
fails: `download_thumbnail_counterexample` exhibits a run whose artifact
(`.bin`) is not recognized on the second run, which invokes the downloader
again. -/
theorem download_thumbnail_idempotent (env : YtEnv) (files : List (List Char))
    (vid base : List Char) :
    (∀ dry, find_existing_thumbnail files base ≠ none →
      (download_thumbnail env files vid base dry).invocations = 0 ∧
      (download_thumbnail env files vid base dry).ok = true ∧
      (download_thumbnail env files vid base dry).files = files) ∧
    ('.' ∉ vid →
     env.fetch vid (strL "temp_" ++ vid) =
       YtOutcome.ok [(strL "temp_" ++ vid) ++ strL ".jpg"] →
     ((download_thumbnail env files vid base false).ok = true ∧
      (download_thumbnail env
         (download_thumbnail env files vid base false).files vid base
         false).invocations = 0 ∧
      (download_thumbnail env
         (download_thumbnail env files vid base false).files vid base
         false).files = (download_thumbnail env files vid base false).files)) := by
  constructor
  · intro dry hne
    rcases hfe : find_existing_thumbnail files base with _ | e
    · exact absurd hfe hne
    · unfold download_thumbnail
      simp only [hfe]
      refine ⟨?_, ?_, ?_⟩ <;> trivial
  · intro hdot hfetch
    rcases hfe : find_existing_thumbnail files base with _ | e
    · have hfd : find_downloaded_thumbnail
          (files ++ [(strL "temp_" ++ vid) ++ strL ".jpg"]) (strL "temp_" ++ vid) =
          some ((strL "temp_" ++ vid) ++ strL ".jpg") := by
        unfold find_downloaded_thumbnail
        rw [show THUMBNAIL_EXTENSIONS =
          strL ".jpg" :: [strL ".jpeg", strL ".png", strL ".webp"] from rfl]
        simp only [fdExtLoop]
        rw [withSuffix_temp hdot, if_pos (by simp)]
      have hr1 : download_thumbnail env files vid base false =
          ⟨true, rename (files ++ [(strL "temp_" ++ vid) ++ strL ".jpg"])
            ((strL "temp_" ++ vid) ++ strL ".jpg") (base ++ strL ".jpg"), 1,
            [strL "✓ Downloaded thumbnail for " ++ base]⟩ := by
        unfold download_thumbnail
        simp only [hfe, hfetch, hfd, suffixOf_temp_jpg]
        rfl
      have hmem2 : base ++ strL ".jpg" ∈
          rename (files ++ [(strL "temp_" ++ vid) ++ strL ".jpg"])
            ((strL "temp_" ++ vid) ++ strL ".jpg") (base ++ strL ".jpg") := by
        unfold rename
        refine List.mem_map.mpr ⟨(strL "temp_" ++ vid) ++ strL ".jpg", by simp, ?_⟩
        rw [if_pos rfl]
      have hfe2 : find_existing_thumbnail
          (rename (files ++ [(strL "temp_" ++ vid) ++ strL ".jpg"])
            ((strL "temp_" ++ vid) ++ strL ".jpg") (base ++ strL ".jpg")) base =
          some (base ++ strL ".jpg") := by
        unfold find_existing_thumbnail
        rw [show THUMBNAIL_EXTENSIONS =
          strL ".jpg" :: [strL ".jpeg", strL ".png", strL ".webp"] from rfl]
        simp only [findExistLoop]
        rw [if_pos hmem2]
      refine ⟨by rw [hr1], ?_, ?_⟩
      · rw [hr1]
        show (download_thumbnail env (rename _ _ _) vid base false).invocations = 0
        unfold download_thumbnail
        simp only [hfe2]
      · rw [hr1]
        show (download_thumbnail env (rename _ _ _) vid base false).files = _
        unfold download_thumbnail
        simp only [hfe2]
    · have hr1 : download_thumbnail env files vid base false =
          ⟨true, files, 0,
            [strL "Thumbnail already exists: " ++ e ++ strL " (skipping)"]⟩ := by
        unfold download_thumbnail
        simp only [hfe]
      refine ⟨by rw [hr1], ?_, ?_⟩
      · rw [hr1]
        show (download_thumbnail env files vid base false).invocations = 0
        unfold download_thumbnail
        simp only [hfe]
      · rw [hr1]
        show (download_thumbnail env files vid base false).files = files
        unfold download_thumbnail
        simp only [hfe]

theorem download_thumbnail_idempotent_witness :
    ('.' ∉ strL "xyz" ∧
     YtEnv.fetch ⟨fun _ _ => .ok [strL "temp_xyz.jpg"]⟩ (strL "xyz")
        (strL "temp_" ++ strL "xyz") =
       YtOutcome.ok [(strL "temp_" ++ strL "xyz") ++ strL ".jpg"]) ∧
    ((download_thumbnail ⟨fun _ _ => .ok [strL "temp_xyz.jpg"]⟩ []
        (strL "xyz") (strL "Clip [xyz]") false).ok = true ∧
     (download_thumbnail ⟨fun _ _ => .ok [strL "temp_xyz.jpg"]⟩
        (download_thumbnail ⟨fun _ _ => .ok [strL "temp_xyz.jpg"]⟩ []
          (strL "xyz") (strL "Clip [xyz]") false).files
        (strL "xyz") (strL "Clip [xyz]") false).invocations = 0 ∧
     (download_thumbnail ⟨fun _ _ => .ok [strL "temp_xyz.jpg"]⟩
        (download_thumbnail ⟨fun _ _ => .ok [strL "temp_xyz.jpg"]⟩ []
          (strL "xyz") (strL "Clip [xyz]") false).files
        (strL "xyz") (strL "Clip [xyz]") false).files =
       (download_thumbnail ⟨fun _ _ => .ok [strL "temp_xyz.jpg"]⟩ []
          (strL "xyz") (strL "Clip [xyz]") false).files) :=
  ⟨⟨by decide, rfl⟩,
   (download_thumbnail_idempotent ⟨fun _ _ => .ok [strL "temp_xyz.jpg"]⟩ []
     (strL "xyz") (strL "Clip [xyz]")).2 (by decide) rfl⟩

theorem dt_dry (env : YtEnv) (files : List (List Char)) (vid base : List Char) :
    (download_thumbnail env files vid base true).files = files ∧
    (download_thumbnail env files vid base true).invocations = 0 := by
  unfold download_thumbnail
  rcases hfe : find_existing_thumbnail files base with _ | e
  · simp only [hfe]
    refine ⟨?_, ?_⟩ <;> trivial
  · simp only [hfe]
    refine ⟨?_, ?_⟩ <;> trivial

theorem pdGo_dry_frame (env : YtEnv) (total : Nat) :
    ∀ (tasks : List (List Char × List Char)) (files : List (List Char))
      (idx p s inv : Nat) (prints : List (List Char)),
      (pdGo env true total tasks files idx p s inv prints).files = files ∧
      (pdGo env true total tasks files idx p s inv prints).invocations = inv := by
  intro tasks
  induction tasks with
  | nil =>
    intro files idx p s inv prints
    exact ⟨rfl, rfl⟩
  | cons t rest ih =>
    intro files idx p s inv prints
    obtain ⟨f, vid⟩ := t
    simp only [pdGo]
    obtain ⟨hf, hi⟩ := dt_dry env files vid (splitExt f).1
    rw [hf, hi, Nat.add_zero]
    exact ih files (idx + 1) (p + 1) _ inv _

/-- C9: in dry-run mode the pipeline performs no downloader invocation and
no filesystem write — for every environment and directory the resulting
file list equals the input and the invocation count is zero — and a
dry-run pass over `Talk [XyZ987].mkv` prints exactly the processing lines
with the would-download URL containing the extracted id `XyZ987`, leaving
the directory unchanged. -/
theorem process_directory_dry_run (env : YtEnv) (files : List (List Char)) :
    (process_directory env files true).files = files ∧
    (process_directory env files true).invocations = 0 ∧
    (process_directory env [strL "Talk [XyZ987].mkv"] true).prints =
      [strL "Processing: Talk [XyZ987].mkv",
       strL "Video ID: XyZ987",
       strL "[DRY RUN] Would download: https://www.youtube.com/watch?v=XyZ987",
       strL "[DRY RUN] Would save as: Talk [XyZ987].jpg"] ∧
    (process_directory env [strL "Talk [XyZ987].mkv"] true).files =
      [strL "Talk [XyZ987].mkv"] := by
  refine ⟨?_, ?_, rfl, rfl⟩
  · exact (pdGo_dry_frame env _ _ files 0 0 0 0 []).1
  · exact (pdGo_dry_frame env _ _ files 0 0 0 0 []).2
